import Mathlib

/-!
# Verification of the antistazy-discord-bot territory pipeline

This file gives a shallow embedding of the core of `src/bot.js`:

* the convex-hull builder `convexHull` (Graham scan / monotone chain,
  lines 232–270),
* the coordinate mapper and the renderer's point-collection logic
  (`generateMapImage`, lines 275–374),
* the textual-summary grouping (`updateTerritoryMap`, lines 561–628),
* the territory ingestion endpoint (`app.post('/api/territory')`,
  lines 1469–1511) and the read endpoint.

JavaScript numbers are modelled as exact arithmetic: the hull builder is
embedded over `ℤ × ℤ` (the claims quantify over arbitrary integer point
sets), the renderer over `ℚ` (the canvas scale `1200/12800` is not an
integer).  JavaScript truthiness of a possibly-absent numeric field is
modelled on `Option ℚ`: `none` (absent) and `some 0` are falsy.
-/

namespace Hull

/-- A 2-D point, as consumed by `convexHull` in `bot.js`. -/
abbrev Pt : Type := ℤ × ℤ

/-- Line 242–244 of `bot.js`:
`(a.x - o.x) * (b.y - o.y) - (a.y - o.y) * (b.x - o.x)`. -/
def cross (o a b : Pt) : ℤ :=
  (a.1 - o.1) * (b.2 - o.2) - (a.2 - o.2) * (b.1 - o.1)

/-- The sort comparator of lines 236–239: ascending by `x`,
tie-break ascending by `y` (lexicographic order on pairs). -/
def lexLe (a b : Pt) : Prop :=
  a.1 < b.1 ∨ (a.1 = b.1 ∧ a.2 ≤ b.2)

instance decLexLe : DecidableRel lexLe := fun _ _ => instDecidableOr

/-- `points.slice().sort(comparator)` of lines 236–239.  The comparator
returns `0` only on identical points, so every sorting algorithm produces
the same output list; we use insertion sort (structurally recursive, hence
kernel-computable). -/
def sortPoints (l : List Pt) : List Pt := l.insertionSort lexLe

/-- The inner `while` loop of lines 249–251 / 259–261: with the chain kept
in reverse (head = most recently accepted point), pop the head while the
cross product of (second, head, candidate) is `≤ 0`. -/
def popWhile (q : Pt) : List Pt → List Pt
  | b :: a :: t => if cross a b q ≤ 0 then popWhile q (a :: t) else b :: a :: t
  | l => l

/-- The chain-building `for` loop of lines 247–253 / 256–263, processing the
point sequence left to right, chain kept in reverse. -/
def buildChain : List Pt → List Pt → List Pt
  | acc, [] => acc
  | acc, q :: rest => buildChain (q :: popWhile q acc) rest

/-- `convexHull` of lines 232–270: guard for `< 3` points, sort, build the
lower chain over the sorted list and the upper chain over its reverse,
drop the final (duplicated) point of each chain, concatenate. -/
def convexHull (points : List Pt) : List Pt :=
  if points.length < 3 then points
  else
    let sorted := sortPoints points
    let lower := (buildChain [] sorted).reverse
    let upper := (buildChain [] sorted.reverse).reverse
    lower.dropLast ++ upper.dropLast

/-! ## Vocabulary for the hull-correctness claim -/

/-- Helper for `cyclicPairs`: adjacent pairs, closing back to `first`. -/
def cpAux (first : Pt) : List Pt → List (Pt × Pt)
  | [] => []
  | [x] => [(x, first)]
  | x :: y :: t => (x, y) :: cpAux first (y :: t)

/-- The directed edges of a closed polygon given by its vertex list:
`[(v0,v1), (v1,v2), …, (vlast, v0)]`. -/
def cyclicPairs : List Pt → List (Pt × Pt)
  | [] => []
  | a :: rest => cpAux a (a :: rest)

/-- Every triple of points drawn from the list is collinear. -/
def AllCollinear (ps : List Pt) : Prop :=
  ∀ p ∈ ps, ∀ q ∈ ps, ∀ r ∈ ps, cross p q r = 0

instance : DecidablePred AllCollinear := fun _ =>
  List.decidableBAll _ _

/-- `H` is a simple convex polygon (vertex sequence in traversal order,
no closing duplicate) that contains every point of `ps`, with collinear
points lying on a hull edge excluded from the vertex list:

* at least 3 vertices, pairwise distinct, all drawn from the input;
* strict convexity: every vertex lies strictly to the left of every
  directed edge it is not an endpoint of (this is convex position in
  counter-clockwise traversal order and rules out self-intersection);
* containment: every input point lies weakly to the left of every edge;
* edge-collinear exclusion: an input point lying exactly on the line of an
  edge is not a vertex unless it is one of that edge's endpoints. -/
def IsConvexHullOf (ps H : List Pt) : Prop :=
  3 ≤ H.length ∧ H.Nodup ∧ (∀ v ∈ H, v ∈ ps) ∧
  (∀ e ∈ cyclicPairs H, ∀ w ∈ H, w ≠ e.1 → w ≠ e.2 → 0 < cross e.1 e.2 w) ∧
  (∀ p ∈ ps, ∀ e ∈ cyclicPairs H, 0 ≤ cross e.1 e.2 p) ∧
  (∀ p ∈ ps, ∀ e ∈ cyclicPairs H, cross e.1 e.2 p = 0 → p ∈ H → p = e.1 ∨ p = e.2)

instance : ∀ ps H, Decidable (IsConvexHullOf ps H) := fun _ _ =>
  instDecidableAnd

end Hull

namespace Renderer

open Hull in
/-- `MAP_SIZE` of line 292 (`const MAP_SIZE = 12800`). -/
def MAP_SIZE : ℚ := 12800

/-- `CANVAS_SIZE` of line 293 (`const CANVAS_SIZE = 1200`). -/
def CANVAS_SIZE : ℚ := 1200

/-- `SCALE` of line 294 (`const SCALE = CANVAS_SIZE / MAP_SIZE`). -/
def SCALE : ℚ := CANVAS_SIZE / MAP_SIZE

/-- Line 359: `const x = base.x * SCALE`. -/
def toCanvasX (x : ℚ) : ℚ := x * SCALE

/-- Line 360: `const y = (MAP_SIZE - base.z) * SCALE` (Z axis flipped). -/
def toCanvasY (z : ℚ) : ℚ := (MAP_SIZE - z) * SCALE

/-- One game-world base, as found in `territoryData.bases`.  Every field
may be absent in the incoming JSON, hence `Option`. -/
structure Base where
  name : Option String
  x : Option ℚ
  z : Option ℚ
  faction : Option String
  type : Option String
  poiType : Option String
deriving DecidableEq, Repr

/-- JavaScript truthiness of a possibly-absent numeric field:
`undefined` and `0` are falsy (`!base.x`). -/
def truthy : Option ℚ → Bool
  | none => false
  | some v => v != 0

/-- A base together with its computed canvas position (`baseData` of
lines 362–366: the spread base plus `canvasX`/`canvasY`). -/
structure PlacedBase where
  base : Base
  canvasX : ℚ
  canvasY : ℚ
deriving DecidableEq, Repr

/-- The `basePositions` collection of lines 352–367: skip any base with
falsy `x` or `z` (line 355), otherwise record canvas coordinates. -/
def basePositions (bases : List Base) : List PlacedBase :=
  bases.filterMap fun b =>
    if truthy b.x && truthy b.z then
      some ⟨b, toCanvasX (b.x.getD 0), toCanvasY (b.z.getD 0)⟩
    else none

/-- Line 370: the per-faction hull-point collection.  A base contributes a
canvas point to faction `f`'s list iff it passed the coordinate filter of
line 355 and `base.faction !== 'Neutral' && base.type !== 'HQ' &&
factionBases[base.faction]` holds, where `factionBases` has exactly the
keys `US`, `USSR`, `FIA` (lines 345–349). -/
def hullPointsFor (bases : List Base) (f : String) : List (ℚ × ℚ) :=
  bases.filterMap fun b =>
    if truthy b.x && truthy b.z
        && (b.faction != some "Neutral") && (b.type != some "HQ")
        && (b.faction == some f)
        && (f == "US" || f == "USSR" || f == "FIA") then
      some (toCanvasX (b.x.getD 0), toCanvasY (b.z.getD 0))
    else none

/-- The diagnostic bounding-box fold of lines 277–287: starting from
"infinities" (modelled as `none`), fold min/max over every base whose `x`
and `z` are truthy (`if (base.x && base.z)`). -/
def bboxStep (acc : Option (ℚ × ℚ × ℚ × ℚ)) (b : Base) : Option (ℚ × ℚ × ℚ × ℚ) :=
  if truthy b.x && truthy b.z then
    let bx := b.x.getD 0
    let bz := b.z.getD 0
    match acc with
    | none => some (bx, bx, bz, bz)
    | some (mnx, mxx, mnz, mxz) =>
        some (min mnx bx, max mxx bx, min mnz bz, max mxz bz)
  else acc

/-- The observed `[minX,maxX] × [minZ,maxZ]` bounding box logged at
line 289 (`none` = no base passed the filter, i.e. infinities). -/
def bbox (bases : List Base) : Option (ℚ × ℚ × ℚ × ℚ) :=
  bases.foldl bboxStep none

/-- The marker shapes of lines 412–425. -/
inductive Shape where
  | star
  | diamond
  | circle
deriving DecidableEq, Repr

/-- Lines 413–425: `HQ` → star, `POI` → diamond, anything else → circle. -/
def markerShape (b : Base) : Shape :=
  if b.type == some "HQ" then .star
  else if b.type == some "POI" then .diamond
  else .circle

/-- The marker layer of lines 404–425: one marker per entry of
`basePositions`, shaped by `markerShape`. -/
def drawnMarkers (bases : List Base) : List (PlacedBase × Shape) :=
  (basePositions bases).map fun pb => (pb, markerShape pb.base)

end Renderer

namespace Summary

open Renderer

/-- Line 572–573: `base.faction || 'Neutral'`, then
`factionBases[faction] || factionBases['Neutral']` — a falsy (absent or
empty) faction string and any faction not among the four keys fall back
to `Neutral`. -/
def facOf (b : Base) : String :=
  let f := match b.faction with
    | none => "Neutral"
    | some s => if s = "" then "Neutral" else s
  if f = "US" ∨ f = "USSR" ∨ f = "FIA" ∨ f = "Neutral" then f else "Neutral"

/-- Lines 575–581: the `hq` sub-list of faction `f` (the categorisation
loop pushes each base of the faction with `type === 'HQ'`, in order). -/
def hqOf (bases : List Base) (f : String) : List Base :=
  bases.filter fun b => facOf b = f ∧ b.type = some "HQ"

/-- Lines 575–581: the `fobs` sub-list of faction `f`. -/
def fobsOf (bases : List Base) (f : String) : List Base :=
  bases.filter fun b => facOf b = f ∧ b.type = some "FOB"

/-- Lines 575–581: the `pois` sub-list of faction `f`. -/
def poisOf (bases : List Base) (f : String) : List Base :=
  bases.filter fun b => facOf b = f ∧ b.type = some "POI"

/-- Line 586: `totalBases = data.hq.length + data.fobs.length + data.pois.length`. -/
def totalFor (bases : List Base) (f : String) : Nat :=
  (hqOf bases f).length + (fobsOf bases f).length + (poisOf bases f).length

/-- The iteration order of `Object.entries(factionBases)` (lines 562–567). -/
def summaryKeys : List String := ["US", "USSR", "FIA", "Neutral"]

/-- Lines 584–621: the factions that get an embed field — those with
`totalBases > 0` (line 588 skips the rest), in key order.  (Only reached
when `territoryData.bases` is non-empty; an empty snapshot yields the
"No Data" placeholder of lines 622–628 instead.) -/
def summaryFactions (bases : List Base) : List String :=
  summaryKeys.filter fun f => totalFor bases f ≠ 0

end Summary

namespace Ingest

/-- A JavaScript value as seen by the express route handlers (the decoded
`req.body`, the stored `territoryData`, …).  Objects are ordered key/value
lists (JavaScript objects cannot contain a duplicate key). -/
inductive JsVal where
  | vnull
  | vbool (b : Bool)
  | vnum (q : ℚ)
  | vstr (s : String)
  | varr (elems : List JsVal)
  | vobj (entries : List (String × JsVal))

/-- `Object.keys(v)`: `none` models the `TypeError` thrown on `null`;
strings and arrays yield their index keys, other primitives yield `[]`. -/
def jsKeys : JsVal → Option (List String)
  | .vnull => none
  | .vobj es => some (es.map Prod.fst)
  | .varr xs => some ((List.range xs.length).map toString)
  | .vstr s => some ((List.range s.length).map toString)
  | .vbool _ => some []
  | .vnum _ => some []

/-- Property lookup `v[k]` on an object. -/
def jsGet (v : JsVal) (k : String) : Option JsVal :=
  match v with
  | .vobj es => (es.find? fun e => e.1 == k).map Prod.snd
  | _ => none

/-- `firstKey.startsWith('{')` of line 1477: the first character is `{`. -/
def startsWithBrace (s : String) : Bool :=
  match s.data with
  | [] => false
  | c :: _ => c == '\x7b'

/-- Lines 1474–1491 of `bot.js`: decide how to obtain `parsedData` from the
decoded request body.  `jp` stands for `JSON.parse` (a JavaScript builtin,
not part of this repository); `none` models a thrown parse error.

* an object body (`typeof === 'object' && !Array.isArray`) whose first key
  is truthy and starts with `{` is the mangled form-encoded case: the
  original JSON text is rebuilt as `'{"bases":[' + arrayContent + ']}'`
  where `arrayContent` is the first key of the value under the first key
  (lines 1476–1483); `Object.keys` of a `null` value throws (→ `none`),
  and an absent `arrayContent` makes `JSON.parse` fail on the text
  `{"bases":[undefined]}` (→ `none`);
* any other object body is taken as-is (line 1485);
* a string body is `JSON.parse`d (line 1488);
* everything else is taken as-is (line 1490).  `typeof null === 'object'`,
  so a `null` body reaches `Object.keys(req.body)` and throws. -/
def territoryParse (jp : String → Option JsVal) (body : JsVal) : Option JsVal :=
  match body with
  | .vnull => none
  | .vobj entries =>
      match entries.head? with
      | some (k, v) =>
          if (k != "") && startsWithBrace k then
            match jsKeys v with
            | none => none
            | some keys =>
                match keys.head? with
                | some arrayContent =>
                    jp ("\x7b\"bases\":[" ++ arrayContent ++ "]\x7d")
                | none => none
          else some (.vobj entries)
      | none => some (.vobj entries)
  | .vstr s => jp s
  | other => some other

/-- Line 1494: `territoryData.lastUpdate = new Date().toISOString()`.
On an object the property is overwritten in place or appended; on any
other value the assignment has no JSON-visible effect. -/
def setLastUpdate (d : JsVal) (now : String) : JsVal :=
  match d with
  | .vobj es =>
      if es.any fun e => e.1 == "lastUpdate" then
        .vobj (es.map fun e => if e.1 == "lastUpdate" then (e.1, .vstr now) else e)
      else
        .vobj (es ++ [("lastUpdate", .vstr now)])
  | other => other

/-- Outcome of one `POST /api/territory` request: the HTTP status sent
(`200` with `{success:true}`, or `500` with an error message, lines
1506–1509) and the stored snapshot afterwards. -/
structure PostResult where
  status : Nat
  state : JsVal

/-- Lines 1469–1511: parse the body; on success replace `territoryData`
wholesale and stamp `lastUpdate`; on a thrown error answer 500 and leave
the snapshot untouched (the `catch` fires before the assignment at
line 1493). -/
def territoryPost (jp : String → Option JsVal) (st : JsVal) (now : String)
    (body : JsVal) : PostResult :=
  match territoryParse jp body with
  | none => ⟨500, st⟩
  | some d => ⟨200, setLastUpdate d now⟩

/-- Lines 1514–1516: `GET /api/territory` returns the stored snapshot. -/
def territoryGet (st : JsVal) : JsVal := st

/-- The base list visible in a snapshot: its `bases` property. -/
def basesOf (st : JsVal) : Option JsVal := jsGet st "bases"

end Ingest

namespace Hull

/-- C8: for every input point sequence of size less than 3, `convexHull`
returns the input unchanged (the guard `if (points.length < 3) return
points` at line 233). -/
theorem convexHull_small_input (points : List Pt) (h : points.length < 3) :
    convexHull points = points := by
  simp [convexHull, h]

theorem convexHull_small_input_witness :
    ([((0:ℤ),(0:ℤ)), (5,7)] : List Pt).length < 3 ∧
      convexHull [((0:ℤ),(0:ℤ)), (5,7)] = [((0:ℤ),(0:ℤ)), (5,7)] :=
  ⟨by decide, convexHull_small_input _ (by decide)⟩

end Hull

namespace Renderer

/-- C3: the coordinate mapper computes `canvasX = x * scale` and
`canvasY = (mapSize - z) * scale` with `scale = canvasSize / mapSize`
for every placed base; consequently `canvasX` is strictly increasing and
linear in `x` and `canvasY` strictly decreasing and linear in `z`, both
with absolute slope `canvasSize / mapSize`. -/
theorem coordinate_mapper_spec :
    SCALE = CANVAS_SIZE / MAP_SIZE ∧
    (∀ bases : List Base, ∀ pb ∈ basePositions bases, ∃ xv zv : ℚ,
        pb.base.x = some xv ∧ pb.base.z = some zv ∧
        pb.canvasX = xv * SCALE ∧ pb.canvasY = (MAP_SIZE - zv) * SCALE) ∧
    (∀ x1 x2 : ℚ, x1 < x2 → toCanvasX x1 < toCanvasX x2) ∧
    (∀ z1 z2 : ℚ, z1 < z2 → toCanvasY z2 < toCanvasY z1) ∧
    (∀ x1 x2 : ℚ, toCanvasX x2 - toCanvasX x1 = (x2 - x1) * (CANVAS_SIZE / MAP_SIZE)) ∧
    (∀ z1 z2 : ℚ, toCanvasY z2 - toCanvasY z1 = -((z2 - z1) * (CANVAS_SIZE / MAP_SIZE))) := by
  have hS : (0:ℚ) < SCALE := by norm_num [SCALE, CANVAS_SIZE, MAP_SIZE]
  refine ⟨rfl, ?_, ?_, ?_, ?_, ?_⟩
  · intro bases pb hpb
    rcases List.mem_filterMap.1 hpb with ⟨b, _, hmap⟩
    by_cases hc : (truthy b.x && truthy b.z) = true
    · rw [if_pos hc] at hmap
      have hx : truthy b.x = true := (Bool.and_eq_true _ _ ▸ hc).1
      have hz : truthy b.z = true := (Bool.and_eq_true _ _ ▸ hc).2
      cases hbx : b.x with
      | none => rw [hbx] at hx; exact absurd hx (by simp [truthy])
      | some xv =>
        cases hbz : b.z with
        | none => rw [hbz] at hz; exact absurd hz (by simp [truthy])
        | some zv =>
          refine ⟨xv, zv, ?_, ?_, ?_, ?_⟩ <;>
            cases hmap <;> simp [hbx, hbz, toCanvasX, toCanvasY]
    · rw [if_neg hc] at hmap; cases hmap
  · intro x1 x2 h
    exact mul_lt_mul_of_pos_right h hS
  · intro z1 z2 h
    exact mul_lt_mul_of_pos_right (by linarith) hS
  · intro x1 x2; simp only [toCanvasX, SCALE]; ring
  · intro z1 z2; simp only [toCanvasY, SCALE]; ring

theorem coordinate_mapper_spec_witness :
    toCanvasX 100 < toCanvasX 200 ∧ toCanvasY 200 < toCanvasY 100 :=
  ⟨coordinate_mapper_spec.2.2.1 100 200 (by decide),
   coordinate_mapper_spec.2.2.2.1 100 200 (by decide)⟩

/-- C4: a Neutral-faction or HQ-type base never contributes a point to any
faction's hull-point collection, and every collected point comes from a
base whose faction is one of `US`/`USSR`/`FIA` (not Neutral) with type
other than `HQ` (line 370). -/
theorem hull_eligibility_filter :
    (∀ (l1 l2 : List Base) (b : Base) (f : String),
        b.faction = some "Neutral" ∨ b.type = some "HQ" →
        hullPointsFor (l1 ++ b :: l2) f = hullPointsFor (l1 ++ l2) f) ∧
    (∀ (bases : List Base) (f : String) (p : ℚ × ℚ), p ∈ hullPointsFor bases f →
        ∃ b ∈ bases, b.faction = some f ∧ b.faction ≠ some "Neutral" ∧
          b.type ≠ some "HQ" ∧ (f = "US" ∨ f = "USSR" ∨ f = "FIA")) := by
  constructor
  · intro l1 l2 b f h
    unfold hullPointsFor
    rw [List.filterMap_append, List.filterMap_append, List.filterMap_cons]
    rcases h with h | h <;> simp [h]
  · intro bases f p hp
    rcases List.mem_filterMap.1 hp with ⟨b, hb, hmap⟩
    by_cases hc : (truthy b.x && truthy b.z
        && (b.faction != some "Neutral") && (b.type != some "HQ")
        && (b.faction == some f)
        && (f == "US" || f == "USSR" || f == "FIA")) = true
    · simp only [Bool.and_eq_true, Bool.or_eq_true, bne_iff_ne, beq_iff_eq] at hc
      exact ⟨b, hb, hc.1.2, hc.1.1.1.2, hc.1.1.2, or_assoc.mp hc.2⟩
    · rw [if_neg hc] at hmap; cases hmap

/-- A sample Neutral base (used by witnesses). -/
def bNeutral : Base := ⟨some "N", some 5, some 6, some "Neutral", some "FOB", none⟩

/-- A sample coordinate-less base (used by witnesses). -/
def bNoCoords : Base := ⟨some "NC", none, none, some "US", some "FOB", none⟩

/-- A sample base missing only its `x` coordinate (used by witnesses). -/
def bNoX : Base := ⟨some "NX", none, some 6, some "US", some "FOB", none⟩

/-- A sample base at `x = 0` (used by witnesses). -/
def bZeroX : Base := ⟨some "Z", some 0, some 6, some "US", some "FOB", none⟩

/-- A sample base with an unrecognized type (used by witnesses). -/
def bWeird : Base := ⟨some "W", some 5, some 6, some "US", some "Watchtower", none⟩

theorem hull_eligibility_filter_witness :
    hullPointsFor ([] ++ bNeutral :: []) "US" = hullPointsFor ([] ++ []) "US" :=
  hull_eligibility_filter.1 [] [] bNeutral "US" (Or.inl rfl)

/-- C5: a base missing either coordinate (`x` absent, `z` absent, or both —
the `!base.x || !base.z` test of lines 280 and 354) is excluded from all
geometric computation — marker placement, hull-point collection and the
diagnostic bounding box — but is still counted in the textual summary when
its type is recognised. -/
theorem missing_coords_excluded_but_summarised :
    ∀ (l1 l2 : List Base) (b : Base), b.x = none ∨ b.z = none →
      basePositions (l1 ++ b :: l2) = basePositions (l1 ++ l2) ∧
      (∀ f, hullPointsFor (l1 ++ b :: l2) f = hullPointsFor (l1 ++ l2) f) ∧
      bbox (l1 ++ b :: l2) = bbox (l1 ++ l2) ∧
      (b.type = some "HQ" ∨ b.type = some "FOB" ∨ b.type = some "POI" →
        Summary.totalFor (l1 ++ b :: l2) (Summary.facOf b)
          = Summary.totalFor (l1 ++ l2) (Summary.facOf b) + 1) := by
  intro l1 l2 b hmiss
  have hfalse : (truthy b.x && truthy b.z) = false := by
    rcases hmiss with h | h <;> simp [h, truthy]
  refine ⟨?_, ?_, ?_, ?_⟩
  · unfold basePositions
    rw [List.filterMap_append, List.filterMap_append, List.filterMap_cons]
    simp [hfalse]
  · intro f
    unfold hullPointsFor
    rw [List.filterMap_append, List.filterMap_append, List.filterMap_cons]
    simp [hfalse]
  · unfold bbox
    rw [List.foldl_append, List.foldl_append, List.foldl_cons]
    have : bboxStep (List.foldl bboxStep none l1) b = List.foldl bboxStep none l1 := by
      unfold bboxStep; rw [hfalse]; simp
    rw [this]
  · intro ht
    unfold Summary.totalFor Summary.hqOf Summary.fobsOf Summary.poisOf
    rcases ht with h | h | h <;>
      simp [List.filter_append, List.filter_cons, h] <;> omega

theorem missing_coords_excluded_but_summarised_witness :
    (bNoX.x = none ∧ bNoX.z = some 6) ∧
      basePositions ([] ++ bNoX :: []) = basePositions ([] ++ []) ∧
      Summary.totalFor ([] ++ bNoX :: []) (Summary.facOf bNoX)
        = Summary.totalFor ([] ++ []) (Summary.facOf bNoX) + 1 :=
  ⟨⟨rfl, rfl⟩,
   (missing_coords_excluded_but_summarised [] [] bNoX (Or.inl rfl)).1,
   (missing_coords_excluded_but_summarised [] [] bNoX (Or.inl rfl)).2.2.2
     (Or.inr (Or.inl rfl))⟩

/-- C9 (implicit): the coordinate-presence test is JavaScript falsiness
(`!base.x || !base.z`), so a base whose `x` or `z` is exactly `0` — an
in-bounds world coordinate, since the map space is `[0, MAP_SIZE]` — is
excluded from marker placement, hull-point collection and the diagnostic
bounding box. -/
theorem zero_coordinate_excluded :
    ∀ (l1 l2 : List Base) (b : Base), b.x = some 0 ∨ b.z = some 0 →
      basePositions (l1 ++ b :: l2) = basePositions (l1 ++ l2) ∧
      (∀ f, hullPointsFor (l1 ++ b :: l2) f = hullPointsFor (l1 ++ l2) f) ∧
      bbox (l1 ++ b :: l2) = bbox (l1 ++ l2) ∧
      ((0:ℚ) ≤ 0 ∧ (0:ℚ) ≤ MAP_SIZE) := by
  intro l1 l2 b h
  have hfalse : (truthy b.x && truthy b.z) = false := by
    rcases h with h | h <;> simp [h, truthy]
  refine ⟨?_, ?_, ?_, le_refl 0, by norm_num [MAP_SIZE]⟩
  · unfold basePositions
    rw [List.filterMap_append, List.filterMap_append, List.filterMap_cons]
    simp [hfalse]
  · intro f
    unfold hullPointsFor
    rw [List.filterMap_append, List.filterMap_append, List.filterMap_cons]
    simp [hfalse]
  · unfold bbox
    rw [List.foldl_append, List.foldl_append, List.foldl_cons]
    have : bboxStep (List.foldl bboxStep none l1) b = List.foldl bboxStep none l1 := by
      unfold bboxStep; rw [hfalse]; simp
    rw [this]

theorem zero_coordinate_excluded_witness :
    basePositions ([] ++ bZeroX :: []) = basePositions ([] ++ []) ∧
      bbox ([] ++ bZeroX :: []) = bbox ([] ++ []) :=
  ⟨(zero_coordinate_excluded [] [] bZeroX (Or.inl rfl)).1,
   (zero_coordinate_excluded [] [] bZeroX (Or.inl rfl)).2.2.1⟩

end Renderer

namespace Summary

open Renderer

/-- A base type that is none of `HQ`, `FOB`, `POI`. -/
def unrecognizedType (b : Base) : Prop :=
  b.type ≠ some "HQ" ∧ b.type ≠ some "FOB" ∧ b.type ≠ some "POI"

/-- C10 (implicit): a base whose type is none of `HQ`/`FOB`/`POI` is counted
in no subgroup of the textual summary (lines 575–581 match only those three
types), so a faction all of whose bases have unrecognized types has total 0
and is omitted from the summary entirely (line 588) — even though such a
base, when its coordinates are truthy, is still drawn on the map as a
circle (the `else` branch of lines 419–425). -/
theorem unrecognized_type_uncounted :
    (∀ (bases : List Base) (b : Base) (f : String), unrecognizedType b →
        b ∉ hqOf bases f ∧ b ∉ fobsOf bases f ∧ b ∉ poisOf bases f) ∧
    (∀ (bases : List Base) (f : String),
        (∀ b ∈ bases, facOf b = f → unrecognizedType b) →
        totalFor bases f = 0 ∧ f ∉ summaryFactions bases) ∧
    (∀ (bases : List Base) (b : Base), b ∈ bases →
        truthy b.x = true → truthy b.z = true → unrecognizedType b →
        ((⟨b, toCanvasX (b.x.getD 0), toCanvasY (b.z.getD 0)⟩ : PlacedBase),
          Shape.circle) ∈ drawnMarkers bases) := by
  refine ⟨?_, ?_, ?_⟩
  · intro bases b f hb
    refine ⟨fun h => ?_, fun h => ?_, fun h => ?_⟩
    · unfold hqOf at h
      have := List.of_mem_filter h
      simp only [decide_eq_true_eq] at this
      exact hb.1 this.2
    · unfold fobsOf at h
      have := List.of_mem_filter h
      simp only [decide_eq_true_eq] at this
      exact hb.2.1 this.2
    · unfold poisOf at h
      have := List.of_mem_filter h
      simp only [decide_eq_true_eq] at this
      exact hb.2.2 this.2
  · intro bases f hall
    have hhq : hqOf bases f = [] := by
      refine List.filter_eq_nil_iff.2 fun b hb => ?_
      simp only [decide_eq_true_eq, not_and]
      intro hfac
      exact (hall b hb hfac).1
    have hfob : fobsOf bases f = [] := by
      refine List.filter_eq_nil_iff.2 fun b hb => ?_
      simp only [decide_eq_true_eq, not_and]
      intro hfac
      exact (hall b hb hfac).2.1
    have hpoi : poisOf bases f = [] := by
      refine List.filter_eq_nil_iff.2 fun b hb => ?_
      simp only [decide_eq_true_eq, not_and]
      intro hfac
      exact (hall b hb hfac).2.2
    have htot : totalFor bases f = 0 := by
      simp [totalFor, hhq, hfob, hpoi]
    refine ⟨htot, fun hmem => ?_⟩
    have := List.of_mem_filter hmem
    simp [htot] at this
  · intro bases b hb hx hz hty
    have hshape : markerShape b = Shape.circle := by
      have h1 : (b.type == some "HQ") = false := by
        simpa using hty.1
      have h2 : (b.type == some "POI") = false := by
        simpa using hty.2.2
      simp [markerShape, h1, h2]
    have hpos : (⟨b, toCanvasX (b.x.getD 0), toCanvasY (b.z.getD 0)⟩ : PlacedBase)
        ∈ basePositions bases := by
      refine List.mem_filterMap.2 ⟨b, hb, ?_⟩
      rw [if_pos (by simp [hx, hz])]
    have := List.mem_map_of_mem
      (fun pb : PlacedBase => (pb, markerShape pb.base)) hpos
    simpa [drawnMarkers, hshape] using this

theorem unrecognized_type_uncounted_witness :
    totalFor [bWeird] "US" = 0 ∧ "US" ∉ summaryFactions [bWeird] ∧
      ((⟨bWeird, toCanvasX ((bWeird.x).getD 0), toCanvasY ((bWeird.z).getD 0)⟩ : PlacedBase),
        Shape.circle) ∈ drawnMarkers [bWeird] :=
  ⟨(unrecognized_type_uncounted.2.1 [bWeird] "US"
      (fun b hb _ => by
        cases List.mem_singleton.1 hb
        exact ⟨by decide, by decide, by decide⟩)).1,
   (unrecognized_type_uncounted.2.1 [bWeird] "US"
      (fun b hb _ => by
        cases List.mem_singleton.1 hb
        exact ⟨by decide, by decide, by decide⟩)).2,
   unrecognized_type_uncounted.2.2 [bWeird] bWeird (List.mem_singleton.2 rfl)
      (by decide) (by decide) ⟨by decide, by decide, by decide⟩⟩

end Summary

namespace Ingest

/-- Overwriting the `lastUpdate` entries in place does not change what a
lookup of a different key finds. -/
theorem find_after_stamp (now k : String) (hk : (k == "lastUpdate") = false) :
    ∀ es : List (String × JsVal),
      List.find? (fun e => e.1 == k)
          (es.map fun e => if e.1 == "lastUpdate" then (e.1, JsVal.vstr now) else e)
        = List.find? (fun e => e.1 == k) es
  | [] => rfl
  | (k1, v1) :: t => by
      have hkne : k ≠ "lastUpdate" := by simpa using hk
      by_cases he : (k1 == "lastUpdate") = true
      · have he' : k1 = "lastUpdate" := by simpa using he
        have hek : (k1 == k) = false := by
          simp only [beq_eq_false_iff_ne, ne_eq, he']
          exact fun hh => hkne hh.symm
        simp only [List.map_cons, List.find?_cons, he, if_true, hek]
        exact find_after_stamp now k hk t
      · have he'' : (k1 == "lastUpdate") = false := by simpa using he
        simp only [List.map_cons, List.find?_cons, he'', Bool.false_eq_true, if_false]
        by_cases hek : (k1 == k) = true
        · simp only [hek]
        · have hek' : (k1 == k) = false := by simpa using hek
          simp only [hek']
          exact find_after_stamp now k hk t

/-- `lastUpdate` stamping does not disturb any other property:
lookup of a key other than `lastUpdate` is unchanged. -/
theorem jsGet_setLastUpdate_ne (d : JsVal) (now : String) (k : String)
    (hk : (k == "lastUpdate") = false) :
    jsGet (setLastUpdate d now) k = jsGet d k := by
  cases d with
  | vobj es =>
      simp only [setLastUpdate]
      by_cases hany : (es.any fun e => e.1 == "lastUpdate") = true
      · rw [if_pos hany]
        simp only [jsGet]
        rw [find_after_stamp now k hk es]
      · rw [if_neg hany]
        simp only [jsGet]
        rw [List.find?_append]
        have hk2 : ("lastUpdate" == k) = false := by
          simp only [beq_eq_false_iff_ne, ne_eq]
          exact fun hh => (show k ≠ "lastUpdate" by simpa using hk) hh.symm
        cases hfind : es.find? fun e => e.1 == k with
        | some e => simp [hfind]
        | none => simp [hfind, hk2]
  | vnull => rfl
  | vbool b => rfl
  | vnum q => rfl
  | vstr s => rfl
  | varr xs => rfl

/-- In-place stamping: if some entry has key `lastUpdate`, the stamped list
yields the fresh value on lookup. -/
theorem find_stamp_self (now : String) :
    ∀ es : List (String × JsVal), (es.any fun e => e.1 == "lastUpdate") = true →
      Option.map Prod.snd (List.find? (fun e => e.1 == "lastUpdate")
          (es.map fun e => if e.1 == "lastUpdate" then (e.1, JsVal.vstr now) else e))
        = some (.vstr now)
  | [], h => by cases h
  | (k1, v1) :: t, h => by
      by_cases he : (k1 == "lastUpdate") = true
      · simp only [List.map_cons, List.find?_cons, he, if_true]
        rfl
      · have he' : (k1 == "lastUpdate") = false := by simpa using he
        have ht : (t.any fun e => e.1 == "lastUpdate") = true := by
          rcases List.any_eq_true.1 h with ⟨e1, he1, hkey1⟩
          rcases List.mem_cons.1 he1 with h1 | h1
          · subst h1; exact absurd hkey1 he
          · exact List.any_eq_true.2 ⟨e1, h1, hkey1⟩
        simp only [List.map_cons, List.find?_cons, he', Bool.false_eq_true, if_false]
        exact find_stamp_self now t ht

/-- After a successful ingestion of an object payload, `lastUpdate` holds
the freshly stamped time. -/
theorem jsGet_setLastUpdate_self (es : List (String × JsVal)) (now : String) :
    jsGet (setLastUpdate (.vobj es) now) "lastUpdate" = some (.vstr now) := by
  simp only [setLastUpdate]
  by_cases hany : (es.any fun e => e.1 == "lastUpdate") = true
  · rw [if_pos hany]
    simp only [jsGet]
    exact find_stamp_self now es hany
  · rw [if_neg hany]
    simp only [jsGet]
    rw [List.find?_append]
    have hnone : (es.find? fun e => e.1 == "lastUpdate") = none := by
      rw [List.find?_eq_none]
      intro e he
      by_contra hcon
      exact hany (List.any_eq_true.2 ⟨e, he, by simpa using hcon⟩)
    simp [hnone]

/-- C6: if parsing/reconstruction of the posted body fails, the ingestion
endpoint answers with status 500 and the stored snapshot is left fully
unchanged (the `catch` of lines 1507–1510 fires before the assignment of
line 1493). -/
theorem territoryPost_parse_failure (jp : String → Option JsVal)
    (st : JsVal) (now : String) (body : JsVal)
    (h : territoryParse jp body = none) :
    territoryPost jp st now body = ⟨500, st⟩ := by
  simp [territoryPost, h]

theorem territoryPost_parse_failure_witness :
    territoryParse (fun _ => none) JsVal.vnull = none ∧
      territoryPost (fun _ => none) (JsVal.vobj [("bases", JsVal.varr [])]) "t0" JsVal.vnull
        = ⟨500, JsVal.vobj [("bases", JsVal.varr [])]⟩ :=
  ⟨rfl, territoryPost_parse_failure _ _ _ _ rfl⟩

/-- C7: a successful ingestion fully replaces the stored snapshot — the
resulting state does not depend on the previous snapshot at all, equals the
parsed payload with a freshly stamped `lastUpdate`, and is what subsequent
reads return; in particular its `bases` are exactly the new payload's
`bases` (lines 1493–1497, 1514–1516). -/
theorem territoryPost_replaces_snapshot (jp : String → Option JsVal)
    (stA stB : JsVal) (now : String) (body d : JsVal)
    (h : territoryParse jp body = some d) :
    (territoryPost jp stA now body).state = (territoryPost jp stB now body).state ∧
    (territoryPost jp stA now body).state = setLastUpdate d now ∧
    (territoryPost jp stA now body).status = 200 ∧
    basesOf (territoryGet (territoryPost jp stA now body).state) = basesOf d ∧
    (∀ es, d = JsVal.vobj es →
      jsGet (territoryGet (territoryPost jp stA now body).state) "lastUpdate"
        = some (.vstr now)) := by
  refine ⟨?_, ?_, ?_, ?_, ?_⟩
  · simp [territoryPost, h]
  · simp [territoryPost, h]
  · simp [territoryPost, h]
  · simp only [territoryPost, h, territoryGet, basesOf]
    exact jsGet_setLastUpdate_ne d now "bases" (by decide)
  · intro es hes
    cases hes
    simp only [territoryPost, h, territoryGet]
    exact jsGet_setLastUpdate_self es now

theorem territoryPost_replaces_snapshot_witness :
    (territoryPost (fun _ => none) (JsVal.vobj [("old", JsVal.vnum 1)]) "t0"
        (JsVal.vobj [("bases", JsVal.varr [])])).state
      = (territoryPost (fun _ => none) (JsVal.vobj []) "t0"
        (JsVal.vobj [("bases", JsVal.varr [])])).state ∧
    basesOf (territoryGet (territoryPost (fun _ => none)
        (JsVal.vobj [("old", JsVal.vnum 1)]) "t0"
        (JsVal.vobj [("bases", JsVal.varr [])])).state)
      = basesOf (JsVal.vobj [("bases", JsVal.varr [])]) :=
  ⟨(territoryPost_replaces_snapshot (fun _ => none) (JsVal.vobj [("old", JsVal.vnum 1)])
      (JsVal.vobj []) "t0" (JsVal.vobj [("bases", JsVal.varr [])])
      (JsVal.vobj [("bases", JsVal.varr [])]) rfl).1,
   (territoryPost_replaces_snapshot (fun _ => none) (JsVal.vobj [("old", JsVal.vnum 1)])
      (JsVal.vobj []) "t0" (JsVal.vobj [("bases", JsVal.varr [])])
      (JsVal.vobj [("bases", JsVal.varr [])]) rfl).2.2.2.1⟩

/-- The decoded shape of the mangled form-encoded payload (lines
1476–1480): the sole top-level key is the literal text `{"bases":` and the
sole key of its value is the serialized array body. -/
def mangledBody (a : String) (v : JsVal) : JsVal :=
  .vobj [("\x7b\"bases\":", .vobj [(a, v)])]

/-- C2: for every form-decoded payload in the mangled shape, ingestion
reconstructs the JSON text `'{"bases":[' + arrayContent + ']}'` and parses
it, so that (whenever that text parses to an object carrying a `bases`
property) the stored snapshot is exactly the one obtained by directly
posting the plain JSON text — same resulting state regardless of either
prior snapshot, and the visible base list is the parsed array. -/
theorem mangled_payload_reconstruction (jp : String → Option JsVal)
    (a : String) (v bs : JsVal) (es : List (String × JsVal))
    (stA stB : JsVal) (now : String)
    (h : jp ("\x7b\"bases\":[" ++ a ++ "]\x7d") = some (.vobj (("bases", bs) :: es))) :
    territoryPost jp stA now (mangledBody a v)
        = territoryPost jp stB now (.vobj (("bases", bs) :: es)) ∧
    basesOf (territoryPost jp stA now (mangledBody a v)).state = some bs := by
  have hparse1 : territoryParse jp (mangledBody a v)
      = some (.vobj (("bases", bs) :: es)) := by
    have e1 : territoryParse jp (mangledBody a v)
        = jp ("\x7b\"bases\":[" ++ a ++ "]\x7d") := rfl
    rw [e1, h]
  have hparse2 : territoryParse jp (.vobj (("bases", bs) :: es))
      = some (.vobj (("bases", bs) :: es)) := rfl
  constructor
  · simp [territoryPost, hparse1, hparse2]
  · simp only [territoryPost, hparse1, basesOf]
    rw [jsGet_setLastUpdate_ne _ now "bases" (by decide)]
    simp [jsGet]

/-- The sample mangled array body `{"name":"Alpha","x":100,"z":200}`. -/
def alphaBody : String := "\x7b\"name\":\"Alpha\",\"x\":100,\"z\":200\x7d"

/-- The plain JSON text `{"bases":[{"name":"Alpha","x":100,"z":200}]}`. -/
def alphaJson : String := "\x7b\"bases\":[\x7b\"name\":\"Alpha\",\"x\":100,\"z\":200\x7d]\x7d"

/-- The parsed `bases` array of the sample payload. -/
def alphaBases : JsVal :=
  .varr [.vobj [("name", .vstr "Alpha"), ("x", .vnum 100), ("z", .vnum 200)]]

/-- A sample parse function: parses exactly the sample payload text. -/
def alphaParse : String → Option JsVal := fun s =>
  if s = alphaJson then some (.vobj [("bases", alphaBases)]) else none

theorem mangled_payload_reconstruction_witness :
    territoryPost alphaParse (JsVal.vobj [("old", JsVal.vnum 7)]) "t0"
        (mangledBody alphaBody (JsVal.vstr ""))
      = territoryPost alphaParse (JsVal.vobj []) "t0"
        (JsVal.vobj [("bases", alphaBases)]) ∧
    basesOf (territoryPost alphaParse (JsVal.vobj [("old", JsVal.vnum 7)]) "t0"
        (mangledBody alphaBody (JsVal.vstr ""))).state = some alphaBases :=
  mangled_payload_reconstruction alphaParse alphaBody (JsVal.vstr "") alphaBases []
    (JsVal.vobj [("old", JsVal.vnum 7)]) (JsVal.vobj []) "t0" (by
      show (if ("\x7b\"bases\":[" ++ alphaBody ++ "]\x7d") = alphaJson
          then some (JsVal.vobj [("bases", alphaBases)]) else none)
        = some (JsVal.vobj (("bases", alphaBases) :: []))
      rw [if_pos (by decide)])

end Ingest

/-! ## Correctness of the hull builder

The remainder of the `Hull` development proves the amended hull-correctness
claim: for an input of at least three points that are not all collinear,
`convexHull` produces a simple convex polygon (in the sense of
`IsConvexHullOf`) containing every input point. -/

namespace Hull

theorem lexLe_refl (a : Pt) : lexLe a a := Or.inr ⟨rfl, le_refl _⟩

theorem lexLe_total (a b : Pt) : lexLe a b ∨ lexLe b a := by
  unfold lexLe; omega

theorem lexLe_trans {a b c : Pt} (h1 : lexLe a b) (h2 : lexLe b c) : lexLe a c := by
  unfold lexLe at *; omega

theorem lexLe_antisymm {a b : Pt} (h1 : lexLe a b) (h2 : lexLe b a) : a = b := by
  have hx : a.1 = b.1 ∧ a.2 = b.2 := by unfold lexLe at *; omega
  exact Prod.ext hx.1 hx.2

theorem lexLe_x {a b : Pt} (h : lexLe a b) : a.1 ≤ b.1 := by
  unfold lexLe at h; omega

theorem lexLe_y_of_eq_x {a b : Pt} (h : lexLe a b) (hx : a.1 = b.1) : a.2 ≤ b.2 := by
  unfold lexLe at h; omega

instance : IsTotal Pt lexLe := ⟨lexLe_total⟩

instance : IsTrans Pt lexLe := ⟨fun _ _ _ => lexLe_trans⟩

theorem cross_swap (o a b : Pt) : cross o a b = -cross o b a := by
  unfold cross; ring

theorem cross_cyclic (o a b : Pt) : cross o a b = cross a b o := by
  unfold cross; ring

theorem cross_self_right (o a : Pt) : cross o a a = 0 := by
  unfold cross; ring

theorem cross_self_mid (o a : Pt) : cross o o a = 0 := by
  unfold cross; ring

theorem cross_self_left (o a : Pt) : cross a o o = 0 := by
  unfold cross; ring

/-- Degenerate collinearity: three points with a common first coordinate. -/
theorem cross_eq_zero_of_eq_x {a b c : Pt} (h1 : a.1 = b.1) (h2 : b.1 = c.1) :
    cross a b c = 0 := by
  unfold cross; rw [h1, h2]; ring

/-- Coordinate form of `wedge_backStep`. -/
theorem backStep_core (x1 x2 y1 y2 z1 z2 q1 q2 : ℤ)
    (hx1 : x1 ≤ y1) (hy1 : y1 ≤ z1) (hyv : y1 = z1 → y2 ≤ z2) (hz1 : z1 ≤ q1)
    (h1 : 0 < (y1 - x1) * (z2 - x2) - (y2 - x2) * (z1 - x1))
    (h2 : 0 < (z1 - y1) * (q2 - y2) - (z2 - y2) * (q1 - y1)) :
    0 < (y1 - x1) * (q2 - x2) - (y2 - x2) * (q1 - x1) := by
  rcases eq_or_lt_of_le hy1 with hv | hv
  · exfalso
    have hy2 := hyv hv
    subst hv
    nlinarith [mul_nonneg (by omega : (0:ℤ) ≤ z2 - y2) (by omega : (0:ℤ) ≤ q1 - y1)]
  · have key : (z1 - y1) * ((y1 - x1) * (q2 - x2) - (y2 - x2) * (q1 - x1))
        = (q1 - y1) * ((y1 - x1) * (z2 - x2) - (y2 - x2) * (z1 - x1))
          + (y1 - x1) * ((z1 - y1) * (q2 - y2) - (z2 - y2) * (q1 - y1)) := by ring
    nlinarith [key, mul_pos (by omega : (0:ℤ) < q1 - y1) h1,
      mul_nonneg (by omega : (0:ℤ) ≤ y1 - x1) (le_of_lt h2)]

/-- Walking backwards along a strictly left-turning, lexicographically
ascending chain: if the candidate `q` is strictly left of the edge `(y,z)`
and the chain turns strictly left at `y`, then `q` is strictly left of the
previous edge `(x,y)` as well. -/
theorem wedge_backStep {x y z q : Pt} (hxy : lexLe x y) (hyz : lexLe y z)
    (hzq : lexLe z q) (h1 : 0 < cross x y z) (h2 : 0 < cross y z q) :
    0 < cross x y q :=
  backStep_core x.1 x.2 y.1 y.2 z.1 z.2 q.1 q.2 (lexLe_x hxy) (lexLe_x hyz)
    (fun h => lexLe_y_of_eq_x hyz h) (lexLe_x hzq) h1 h2

/-- Coordinate form of `wedge_newEdge`. -/
theorem newEdge_core (a1 a2 b1 b2 p1 p2 q1 q2 : ℤ)
    (ha1 : a1 ≤ b1) (hav : a1 = b1 → a2 ≤ b2) (hp : p1 ≤ b1) (hq : b1 ≤ q1)
    (hdom : 0 ≤ (b1 - a1) * (p2 - a2) - (b2 - a2) * (p1 - a1))
    (hstop : 0 < (b1 - a1) * (q2 - a2) - (b2 - a2) * (q1 - a1)) :
    0 ≤ (q1 - b1) * (p2 - b2) - (q2 - b2) * (p1 - b1) := by
  rcases eq_or_lt_of_le ha1 with hv | hv
  · exfalso
    have ha2 := hav hv
    subst hv
    nlinarith [mul_nonneg (by omega : (0:ℤ) ≤ b2 - a2) (by omega : (0:ℤ) ≤ q1 - a1)]
  · have key : ((q1 - b1) * (p2 - b2) - (q2 - b2) * (p1 - b1)) * (a1 - b1)
        = ((b1 - a1) * (q2 - a2) - (b2 - a2) * (q1 - a1)) * (p1 - b1)
          - ((b1 - a1) * (p2 - a2) - (b2 - a2) * (p1 - a1)) * (q1 - b1) := by ring
    nlinarith [key, mul_nonneg (le_of_lt hstop) (by omega : (0:ℤ) ≤ b1 - p1),
      mul_nonneg hdom (by omega : (0:ℤ) ≤ q1 - b1)]

/-- The freshly pushed edge `(b,q)` dominates any earlier point `p` that is
weakly left of the retained top edge `(a,b)` and lexicographically before
`b`, given the pop loop stopped (`q` strictly left of `(a,b)`). -/
theorem wedge_newEdge {a b p q : Pt} (hab : lexLe a b) (hp : p.1 ≤ b.1)
    (hq : b.1 ≤ q.1) (hdom : 0 ≤ cross a b p) (hstop : 0 < cross a b q) :
    0 ≤ cross b q p :=
  newEdge_core a.1 a.2 b.1 b.2 p.1 p.2 q.1 q.2 (lexLe_x hab)
    (fun h => lexLe_y_of_eq_x hab h) hp hq hdom hstop

/-- Coordinate form of `wedge_newEdge2`. -/
theorem newEdge2_core (a1 a2 b1 b2 p1 p2 q1 q2 : ℤ)
    (ha1 : a1 ≤ b1) (hav : a1 = b1 → a2 < b2) (hp1 : a1 ≤ p1)
    (hpv : a1 = p1 → a2 ≤ p2) (hq : a1 ≤ q1)
    (hdom : 0 ≤ (b1 - a1) * (p2 - a2) - (b2 - a2) * (p1 - a1))
    (hpop : (b1 - a1) * (q2 - a2) - (b2 - a2) * (q1 - a1) ≤ 0) :
    0 ≤ (q1 - a1) * (p2 - a2) - (q2 - a2) * (p1 - a1) := by
  rcases eq_or_lt_of_le ha1 with hv | hv
  · have ha2 := hav hv
    subst hv
    have hpa1 : p1 = a1 := by nlinarith
    have hp2 : a2 ≤ p2 := hpv hpa1.symm
    subst hpa1
    nlinarith [mul_nonneg (by omega : (0:ℤ) ≤ q1 - p1) (by omega : (0:ℤ) ≤ p2 - a2)]
  · have key : ((q1 - a1) * (p2 - a2) - (q2 - a2) * (p1 - a1)) * (b1 - a1)
        = ((b1 - a1) * (p2 - a2) - (b2 - a2) * (p1 - a1)) * (q1 - a1)
          - ((b1 - a1) * (q2 - a2) - (b2 - a2) * (q1 - a1)) * (p1 - a1) := by ring
    nlinarith [key, mul_nonneg hdom (by omega : (0:ℤ) ≤ q1 - a1),
      mul_nonneg (by omega : (0:ℤ) ≤ -((b1 - a1) * (q2 - a2) - (b2 - a2) * (q1 - a1)))
        (by omega : (0:ℤ) ≤ p1 - a1)]

/-- The freshly pushed edge `(a,q)` dominates any point `p` lexicographically
after `a` that was weakly left of the just-popped edge `(a,b)`, the pop
being justified by `q` lying weakly right of `(a,b)`. -/
theorem wedge_newEdge2 {a b p q : Pt} (hab : lexLe a b) (hne : a ≠ b)
    (hap : lexLe a p) (hq : a.1 ≤ q.1) (hdom : 0 ≤ cross a b p)
    (hpop : cross a b q ≤ 0) : 0 ≤ cross a q p :=
  newEdge2_core a.1 a.2 b.1 b.2 p.1 p.2 q.1 q.2 (lexLe_x hab)
    (fun h => lt_of_le_of_ne (lexLe_y_of_eq_x hab h)
      (fun h2 => hne (Prod.ext h h2)))
    (lexLe_x hap) (fun h => lexLe_y_of_eq_x hap h) hq hdom hpop

/-- Coordinate form of `wedge_chordExt`. -/
theorem chordExt_core (a1 a2 u1 u2 v1 v2 w1 w2 : ℤ)
    (ha1 : a1 ≤ u1) (hu1 : u1 ≤ v1) (huvv : u1 = v1 → u2 < v2) (hv1 : v1 ≤ w1)
    (h1 : 0 < (u1 - a1) * (v2 - a2) - (u2 - a2) * (v1 - a1))
    (h2 : 0 < (v1 - u1) * (w2 - u2) - (v2 - u2) * (w1 - u1)) :
    0 < (v1 - a1) * (w2 - a2) - (v2 - a2) * (w1 - a1) := by
  rcases eq_or_lt_of_le hu1 with hv | hv
  · exfalso
    have hu2 := huvv hv
    subst hv
    nlinarith [mul_nonneg (by omega : (0:ℤ) ≤ v2 - u2) (by omega : (0:ℤ) ≤ w1 - u1)]
  · have key : ((v1 - a1) * (w2 - a2) - (v2 - a2) * (w1 - a1)) * (u1 - v1)
        = -(((u1 - a1) * (v2 - a2) - (u2 - a2) * (v1 - a1)) * (w1 - v1))
          - ((v1 - u1) * (w2 - u2) - (v2 - u2) * (w1 - u1)) * (v1 - a1) := by ring
    nlinarith [key, mul_nonneg (le_of_lt h1) (by omega : (0:ℤ) ≤ w1 - v1),
      mul_pos h2 (by omega : (0:ℤ) < v1 - a1)]

/-- Chord extension: if the old chord endpoint `u` keeps `v` strictly to its
left and the chain turns strictly left at `v` towards `w`, then `w` is
strictly left of the rotated chord `(a,v)`. -/
theorem wedge_chordExt {a u v w : Pt} (hau : lexLe a u) (huv : lexLe u v)
    (hvw : lexLe v w) (h1 : 0 < cross a u v) (h2 : 0 < cross u v w) :
    0 < cross a v w := by
  have hne : u ≠ v := by
    intro h
    rw [h, cross_self_right] at h1
    exact lt_irrefl 0 h1
  exact chordExt_core a.1 a.2 u.1 u.2 v.1 v.2 w.1 w.2 (lexLe_x hau) (lexLe_x huv)
    (fun h => lt_of_le_of_ne (lexLe_y_of_eq_x huv h)
      (fun h2 => hne (Prod.ext h h2)))
    (lexLe_x hvw) h1 h2

/-- Coordinate form of `wedge_rotChord`. -/
theorem rotChord_core (a1 a2 v1 v2 w1 w2 p1 p2 : ℤ)
    (hap : a1 ≤ p1) (hpv : p1 ≤ v1) (hvw : v1 ≤ w1)
    (h1 : (v1 - a1) * (p2 - a2) - (v2 - a2) * (p1 - a1) < 0)
    (h2 : 0 < (v1 - a1) * (w2 - a2) - (v2 - a2) * (w1 - a1)) :
    (w1 - a1) * (p2 - a2) - (w2 - a2) * (p1 - a1) < 0 := by
  rcases eq_or_lt_of_le (le_trans hap hpv) with hv | hv
  · exfalso
    have hpa : p1 = a1 := by omega
    subst hv
    subst hpa
    nlinarith
  · have key : ((w1 - a1) * (p2 - a2) - (w2 - a2) * (p1 - a1)) * (v1 - a1)
        = ((v1 - a1) * (p2 - a2) - (v2 - a2) * (p1 - a1)) * (w1 - a1)
          - ((v1 - a1) * (w2 - a2) - (v2 - a2) * (w1 - a1)) * (p1 - a1) := by ring
    nlinarith [key, mul_neg_of_neg_of_pos h1 (by omega : (0:ℤ) < w1 - a1),
      mul_nonneg (le_of_lt h2) (by omega : (0:ℤ) ≤ p1 - a1)]

/-- Rotating a chord: a point `p` strictly right of the chord `(a,v)` stays
strictly right when the chord rotates to a farther endpoint `w` that is
strictly left of `(a,v)`. -/
theorem wedge_rotChord {a v w p : Pt} (hap : a.1 ≤ p.1) (hpv : p.1 ≤ v.1)
    (hvw : v.1 ≤ w.1) (h1 : cross a v p < 0) (h2 : 0 < cross a v w) :
    cross a w p < 0 :=
  rotChord_core a.1 a.2 v.1 v.2 w.1 w.2 p.1 p.2 hap hpv hvw h1 h2

/-- Coordinate form of `wedge_crossChain`. -/
theorem crossChain_core (s1 s2 m1 m2 u1 u2 v1 v2 w1 w2 : ℤ)
    (hs1 : s1 ≤ u1) (hu1 : u1 ≤ v1) (huvv : u1 = v1 → u2 < v2)
    (hv1 : v1 ≤ m1) (hvmv : v1 = m1 → v2 ≤ m2)
    (hsw1 : s1 ≤ w1) (hwm1 : w1 ≤ m1) (hwmv : w1 = m1 → w2 ≤ m2)
    (hzero : (v1 - u1) * (w2 - u2) - (v2 - u2) * (w1 - u1) = 0)
    (hs : 0 ≤ (v1 - u1) * (s2 - u2) - (v2 - u2) * (s1 - u1))
    (hm : 0 ≤ (v1 - u1) * (m2 - u2) - (v2 - u2) * (m1 - u1)) :
    (m1 - s1) * (w2 - s2) - (m2 - s2) * (w1 - s1) ≤ 0 := by
  rcases eq_or_lt_of_le hu1 with hv | hv
  · -- vertical segment: `w` and `m` are pinned to the same column as `u`
    have hu2 := huvv hv
    subst hv
    have hw1 : w1 = u1 := by nlinarith
    have hm1 : m1 = u1 := by nlinarith
    have hwm2 : w2 ≤ m2 := hwmv (by omega)
    subst hw1
    subst hm1
    nlinarith [mul_nonneg (sub_nonneg.2 hsw1) (sub_nonneg.2 hwm2)]
  · have key : (m1 - w1) * ((v1 - u1) * (s2 - u2) - (v2 - u2) * (s1 - u1))
        + (w1 - s1) * ((v1 - u1) * (m2 - u2) - (v2 - u2) * (m1 - u1))
        - (m1 - s1) * ((v1 - u1) * (w2 - u2) - (v2 - u2) * (w1 - u1))
        = -((v1 - u1) * ((m1 - s1) * (w2 - s2) - (m2 - s2) * (w1 - s1))) := by ring
    nlinarith [key, mul_nonneg (by omega : (0:ℤ) ≤ m1 - w1) hs,
      mul_nonneg (by omega : (0:ℤ) ≤ w1 - s1) hm]

/-- A point `w` on the line of a lexicographically ascending segment
`(u,v)` that keeps both the global minimum `s` and the global maximum `m`
weakly to its left cannot be strictly left of the chord `(s,m)`. -/
theorem wedge_crossChain {s m u v w : Pt} (hsu : lexLe s u) (huv : lexLe u v)
    (hne : u ≠ v) (hvm : lexLe v m) (hsw : lexLe s w) (hwm : lexLe w m)
    (hzero : cross u v w = 0) (hs : 0 ≤ cross u v s) (hm : 0 ≤ cross u v m) :
    cross s m w ≤ 0 :=
  crossChain_core s.1 s.2 m.1 m.2 u.1 u.2 v.1 v.2 w.1 w.2
    (lexLe_x hsu) (lexLe_x huv)
    (fun h => lt_of_le_of_ne (lexLe_y_of_eq_x huv h)
      (fun h2 => hne (Prod.ext h h2)))
    (lexLe_x hvm) (fun h => lexLe_y_of_eq_x hvm h)
    (lexLe_x hsw) (lexLe_x hwm) (fun h => lexLe_y_of_eq_x hwm h)
    hzero hs hm

/-- Two points on the line through `s ≠ m` span a line through `s`:
collinearity transfers. -/
theorem collinear_pivot {s m p q : Pt} (hne : s ≠ m)
    (hp : cross s m p = 0) (hq : cross s m q = 0) : cross s p q = 0 := by
  have keyx : cross s p q * (m.1 - s.1) = cross s m q * (p.1 - s.1)
      - cross s m p * (q.1 - s.1) := by
    unfold cross; ring
  have keyy : cross s p q * (m.2 - s.2) = cross s m q * (p.2 - s.2)
      - cross s m p * (q.2 - s.2) := by
    unfold cross; ring
  rw [hp, hq] at keyx keyy
  simp at keyx keyy
  rcases keyx with h | h
  · exact h
  rcases keyy with h' | h'
  · exact h'
  · exact absurd (Prod.ext (by omega) (by omega)) hne

/-- If every point of a set lies on the line through `s ≠ m`, any three of
them are collinear. -/
theorem collinear_transfer {s m p q r : Pt} (hne : s ≠ m)
    (hp : cross s m p = 0) (hq : cross s m q = 0) (hr : cross s m r = 0) :
    cross p q r = 0 := by
  have expand : cross p q r = cross s q r - cross s p r + cross s p q := by
    unfold cross; ring
  rw [expand, collinear_pivot hne hq hr, collinear_pivot hne hp hr,
    collinear_pivot hne hp hq]
  ring

/-! ### Chain structure -/

/-- Strict left-turn structure of a chain held in reverse order (head =
most recently accepted point): any three consecutive entries `a, b, c`
(that is `c, b, a` in chain order) make a strict left turn. -/
inductive RChain : List Pt → Prop where
  | nil : RChain []
  | single (a : Pt) : RChain [a]
  | pair (a b : Pt) : RChain [a, b]
  | cons {a b c : Pt} {t : List Pt} (h : 0 < cross c b a)
      (ht : RChain (b :: c :: t)) : RChain (a :: b :: c :: t)

theorem RChain_tail {a : Pt} {l : List Pt} (h : RChain (a :: l)) : RChain l := by
  cases h with
  | single => exact RChain.nil
  | pair => exact RChain.single _
  | cons h ht => exact ht

theorem RChain_suffix {l1 l2 : List Pt} (h : RChain l1) (hs : l2.IsSuffix l1) :
    RChain l2 := by
  obtain ⟨pre, rfl⟩ := hs
  induction pre with
  | nil => exact h
  | cons x pre ih => exact ih (RChain_tail h)

theorem RChain_of_append_left : ∀ {l r : List Pt}, RChain (l ++ r) → RChain l
  | [], _, _ => RChain.nil
  | [a], _, _ => RChain.single a
  | [a, b], _, _ => RChain.pair a b
  | a :: b :: c :: t, r, h => by
      cases h with
      | cons h ht => exact RChain.cons h (RChain_of_append_left ht)

/-- The in-order edges of a reverse-held chain: pairs `(older, newer)`
of adjacent entries. -/
def edgesR (acc : List Pt) : List (Pt × Pt) := List.zip acc.tail acc

theorem edgesR_cons (q c : Pt) (t : List Pt) :
    edgesR (q :: c :: t) = (c, q) :: edgesR (c :: t) := rfl

theorem edgesR_sub_cons (q : Pt) (l : List Pt) : edgesR l ⊆ edgesR (q :: l) := by
  cases l with
  | nil => intro e he; cases he
  | cons c t => rw [edgesR_cons]; exact List.subset_cons_self _ _

theorem edgesR_suffix {l1 l2 : List Pt} (hs : l2.IsSuffix l1) :
    edgesR l2 ⊆ edgesR l1 := by
  obtain ⟨pre, rfl⟩ := hs
  induction pre with
  | nil => exact fun e he => he
  | cons x pre ih => exact fun e he => edgesR_sub_cons x _ (ih he)

theorem edgesR_decomp : ∀ {l : List Pt} {u v : Pt}, (u, v) ∈ edgesR l →
    ∃ pre post, l = pre ++ v :: u :: post
  | [], _, _, h => by cases h
  | [x], _, _, h => by cases h
  | x :: c :: t', u, v, h => by
      rw [edgesR_cons] at h
      rcases List.mem_cons.1 h with h | h
      · exact ⟨[], t', by cases h; rfl⟩
      · obtain ⟨pre, post, hp⟩ := edgesR_decomp h
        exact ⟨x :: pre, post, by rw [hp]; rfl⟩

/-! ### The pop loop -/

theorem popWhile_suffix (q : Pt) : ∀ acc : List Pt, (popWhile q acc).IsSuffix acc
  | [] => List.suffix_refl _
  | [a] => List.suffix_refl _
  | b :: a :: t => by
      by_cases h : cross a b q ≤ 0
      · rw [popWhile, if_pos h]
        exact (popWhile_suffix q (a :: t)).trans (List.suffix_cons b (a :: t))
      · rw [popWhile, if_neg h]

theorem popWhile_ne (q : Pt) : ∀ acc : List Pt, acc ≠ [] → popWhile q acc ≠ []
  | [], h => absurd rfl h
  | [a], _ => List.cons_ne_nil a []
  | b :: a :: t, _ => by
      by_cases h : cross a b q ≤ 0
      · rw [popWhile, if_pos h]
        exact popWhile_ne q (a :: t) (List.cons_ne_nil a t)
      · rw [popWhile, if_neg h]
        exact List.cons_ne_nil b (a :: t)

theorem popWhile_stop (q : Pt) : ∀ acc b a t, popWhile q acc = b :: a :: t →
    0 < cross a b q
  | [], b, a, t, h => by rw [show popWhile q [] = [] from rfl] at h; cases h
  | [x], b, a, t, h => by rw [show popWhile q [x] = [x] from rfl] at h; cases h
  | c :: d :: t', b, a, t, h => by
      by_cases hc : cross d c q ≤ 0
      · rw [popWhile, if_pos hc] at h
        exact popWhile_stop q (d :: t') b a t h
      · rw [popWhile, if_neg hc] at h
        cases h
        omega

theorem popWhile_popped (q : Pt) : ∀ acc : List Pt, popWhile q acc = acc ∨
    ∃ e c t, popWhile q acc = c :: t ∧ (e :: c :: t).IsSuffix acc ∧ cross c e q ≤ 0
  | [] => Or.inl rfl
  | [a] => Or.inl rfl
  | b :: a :: t => by
      by_cases h : cross a b q ≤ 0
      · right
        rw [popWhile, if_pos h]
        rcases popWhile_popped q (a :: t) with heq | ⟨e, c, t'', heq, hsuf, hcross⟩
        · exact ⟨b, a, t, heq, List.suffix_refl _, h⟩
        · exact ⟨e, c, t'', heq, hsuf.trans (List.suffix_cons b (a :: t)), hcross⟩
      · left
        rw [popWhile, if_neg h]

/-- The candidate `q` is strictly left of every edge of the retained chain,
given the stop condition of the pop loop at the top edge. -/
theorem qDomChain (q : Pt) : ∀ D : List Pt, RChain D →
    List.Pairwise (fun x y => lexLe y x) D →
    (∀ x ∈ D, lexLe x q) →
    (∀ b a t, D = b :: a :: t → 0 < cross a b q) →
    ∀ e ∈ edgesR D, 0 < cross e.1 e.2 q
  | [], _, _, _, _, e, he => by cases he
  | [x], _, _, _, _, e, he => by cases he
  | b :: a :: t, hch, hsort, hle, htop, e, he => by
      rw [edgesR_cons] at he
      rcases List.mem_cons.1 he with h | h
      · cases h
        exact htop b a t rfl
      · refine qDomChain q (a :: t) (RChain_tail hch) (List.Pairwise.sublist ?_ hsort)
          (fun x hx => hle x (List.mem_cons_of_mem b hx)) ?_ e h
        · exact (List.sublist_cons_self b (a :: t))
        · intro b' a' t' heq
          cases t with
          | nil => cases heq
          | cons c t2 =>
              cases heq
              have htri : 0 < cross a' a b := by
                cases hch with
                | cons h3 _ => exact h3
              have hsort' := List.pairwise_cons.1 hsort
              have hsort'' := List.pairwise_cons.1 hsort'.2
              exact wedge_backStep (hsort''.1 a' (List.mem_cons_self a' _))
                (hsort'.1 a (List.mem_cons_self a _)) (hle b (by simp)) htri
                (htop b a (a' :: t') rfl)

theorem cross_ends (o a : Pt) : cross o a o = 0 := by
  unfold cross; ring

theorem cross_swap13 (a b c : Pt) : cross a b c = -cross c b a := by
  unfold cross; ring

theorem cross_swap12 (a b c : Pt) : cross a b c = -cross b a c := by
  unfold cross; ring

theorem pairwise_head_le {P : List Pt} (hs : List.Pairwise lexLe P) {h0 : Pt}
    (hh : P.head? = some h0) : ∀ p ∈ P, lexLe h0 p := by
  cases P with
  | nil => cases hh
  | cons x t =>
      cases hh
      intro p hp
      rcases List.mem_cons.1 hp with rfl | hp
      · exact lexLe_refl p
      · exact (List.pairwise_cons.1 hs).1 p hp

theorem pairwise_le_getLast : ∀ {P : List Pt}, List.Pairwise lexLe P →
    ∀ {t0 : Pt}, P.getLast? = some t0 → ∀ p ∈ P, lexLe p t0 := by
  intro P
  induction P with
  | nil => intro _ t0 h; cases h
  | cons x xs ih =>
      intro hs t0 hlast p hp
      cases xs with
      | nil =>
          cases hlast
          rcases List.mem_singleton.1 hp with rfl
          exact lexLe_refl _
      | cons y ys =>
          rw [List.getLast?_cons_cons] at hlast
          rcases List.mem_cons.1 hp with rfl | hp
          · have ht0mem : t0 ∈ y :: ys := List.mem_of_mem_getLast? hlast
            exact (List.pairwise_cons.1 hs).1 t0 ht0mem
          · exact ih (List.pairwise_cons.1 hs).2 hlast p hp

theorem all_eq_of_head_last {P : List Pt} (hs : List.Pairwise lexLe P) {c : Pt}
    (hh : P.head? = some c) (hl : P.getLast? = some c) : ∀ p ∈ P, p = c :=
  fun p hp => lexLe_antisymm (pairwise_le_getLast hs hl p hp)
    (pairwise_head_le hs hh p hp)

theorem prefix_head? {l1 l2 : List Pt} (hs : l2.IsPrefix l1) (h : l2 ≠ []) :
    l2.head? = l1.head? := by
  obtain ⟨post, rfl⟩ := hs
  cases l2 with
  | nil => exact absurd rfl h
  | cons x t => rfl

theorem suffix_getLast? {l1 l2 : List Pt} (hs : l2.IsSuffix l1) (h : l2 ≠ []) :
    l2.getLast? = l1.getLast? := by
  obtain ⟨pre, rfl⟩ := hs
  rw [List.getLast?_append_of_ne_nil]
  exact h

/-- An adjacent duplicate inside a left-turning chain forces the whole
chain to be the two-element duplicate. -/
theorem dup_suffix_eq {acc : List Pt} (hch : RChain acc) {c : Pt} {t : List Pt}
    (hsuf : (c :: c :: t).IsSuffix acc) : acc = [c, c] := by
  cases t with
  | cons c' t' =>
      exfalso
      have h3 := RChain_suffix hch hsuf
      cases h3 with
      | cons h3 _ => rw [cross_self_right] at h3; exact lt_irrefl 0 h3
  | nil =>
      obtain ⟨pre, hacc⟩ := hsuf
      rcases List.eq_nil_or_concat pre with rfl | ⟨l', y, rfl⟩
      · simpa using hacc.symm
      · exfalso
        have hsuf3 : (y :: c :: c :: []).IsSuffix acc :=
          ⟨l', by rw [← hacc]; simp⟩
        have h3 := RChain_suffix hch hsuf3
        cases h3 with
        | cons h3 _ => rw [cross_self_mid] at h3; exact lt_irrefl 0 h3

/-- Invariant of the chain fold: after processing the (sorted) prefix `P`,
the reverse-held chain `acc` is a left-turning, lexicographically
descending sub-chain of `P` sharing `P`'s first and last elements, and
every processed point lies weakly to the left of every chain edge. -/
structure ChainInv (P acc : List Pt) : Prop where
  ne : acc ≠ []
  sub : acc.reverse.Sublist P
  head_eq : acc.reverse.head? = P.head?
  last_eq : acc.head? = P.getLast?
  sorted : List.Pairwise (fun x y => lexLe y x) acc
  chain : RChain acc
  dom : ∀ p ∈ P, ∀ e ∈ edgesR acc, 0 ≤ cross e.1 e.2 p
  psorted : List.Pairwise lexLe P

theorem chainInv_step {P acc : List Pt} (q : Pt) (inv : ChainInv P acc)
    (hq : ∀ p ∈ P, lexLe p q) : ChainInv (P ++ [q]) (q :: popWhile q acc) := by
  have hsufD := popWhile_suffix q acc
  have hDne := popWhile_ne q acc inv.ne
  have hDsubacc : (popWhile q acc).Sublist acc := hsufD.sublist
  have haccP : ∀ x ∈ acc, x ∈ P := fun x hx =>
    inv.sub.mem (List.mem_reverse.2 hx)
  have hDP : ∀ x ∈ popWhile q acc, x ∈ P := fun x hx => haccP x (hDsubacc.mem hx)
  have hDq : ∀ x ∈ popWhile q acc, lexLe x q := fun x hx => hq x (hDP x hx)
  have hDsorted : List.Pairwise (fun x y => lexLe y x) (popWhile q acc) :=
    inv.sorted.sublist hDsubacc
  have hDchain : RChain (popWhile q acc) := RChain_suffix inv.chain hsufD
  have hedgeD : edgesR (popWhile q acc) ⊆ edgesR acc := edgesR_suffix hsufD
  have hPne : P ≠ [] := by
    intro h
    have h1 := inv.head_eq
    rw [h] at h1
    simp only [List.head?_nil, List.head?_eq_none_iff] at h1
    exact inv.ne (by simpa using h1)
  -- the freshly created edge `(top of D, q)` dominates every processed point
  have hnew : ∀ c tD, popWhile q acc = c :: tD → ∀ p ∈ P, 0 ≤ cross c q p := by
    intro c tD hDeq p hp
    rcases popWhile_popped q acc with hcase | ⟨e, c', t', hDeq', hsuf', hcross'⟩
    · -- no pop: the chain is unchanged
      have hacc_eq : acc = c :: tD := hcase.symm.trans hDeq
      cases tD with
      | nil =>
          have hallc : ∀ x ∈ P, x = c := by
            apply all_eq_of_head_last inv.psorted
            · rw [← inv.head_eq, hacc_eq]; rfl
            · rw [← inv.last_eq, hacc_eq]; rfl
          rw [hallc p hp, cross_ends]
      | cons a t =>
          have hstop : 0 < cross a c q := popWhile_stop q acc c a t hDeq
          have hpc : lexLe p c := by
            apply pairwise_le_getLast inv.psorted _ p hp
            rw [← inv.last_eq, hacc_eq]; rfl
          have hab : lexLe a c := by
            have hs := hacc_eq ▸ inv.sorted
            exact (List.pairwise_cons.1 hs).1 a (by simp)
          have hdom : 0 ≤ cross a c p := by
            refine inv.dom p hp (a, c) ?_
            rw [hacc_eq, edgesR_cons]
            exact List.mem_cons_self _ _
          exact wedge_newEdge hab (lexLe_x hpc)
            (lexLe_x (hq c (haccP c (by rw [hacc_eq]; simp)))) hdom hstop
    · -- at least one pop, with `e` the innermost popped point
      rw [hDeq] at hDeq'
      cases hDeq'
      by_cases hce : c = e
      · -- `e` duplicates the retained top: the whole chain is `[c, c]`
        subst hce
        have hacc2 : acc = [c, c] := dup_suffix_eq inv.chain hsuf'
        have hallc : ∀ x ∈ P, x = c := by
          apply all_eq_of_head_last inv.psorted
          · rw [← inv.head_eq, hacc2]; rfl
          · rw [← inv.last_eq, hacc2]; rfl
        rw [hallc p hp, cross_ends]
      · have hsorted3 : List.Pairwise (fun x y => lexLe y x) (e :: c :: tD) :=
          inv.sorted.sublist hsuf'.sublist
        have hce' : lexLe c e := (List.pairwise_cons.1 hsorted3).1 c (by simp)
        rcases lexLe_total c p with hcp | hpc
        · -- p lies beyond the retained top: use the just-popped edge
          have hdom : 0 ≤ cross c e p := by
            refine inv.dom p hp (c, e) ?_
            refine edgesR_suffix hsuf' ?_
            rw [edgesR_cons]
            exact List.mem_cons_self _ _
          exact wedge_newEdge2 hce' hce hcp
            (lexLe_x (hq c (hDP c (by rw [hDeq]; simp)))) hdom hcross'
        · cases tD with
          | nil =>
              -- popped down to the chain's very first point
              have hlast : acc.getLast? = some c := by
                rw [← suffix_getLast? hsufD hDne, hDeq]; rfl
              have hheadP : P.head? = some c := by
                rw [← inv.head_eq, List.head?_reverse, hlast]
              have hpceq : p = c :=
                lexLe_antisymm hpc (pairwise_head_le inv.psorted hheadP p hp)
              rw [hpceq, cross_ends]
          | cons a t =>
              have hstop : 0 < cross a c q := popWhile_stop q acc c a t hDeq
              have hab : lexLe a c := by
                have hs := (List.pairwise_cons.1 hsorted3).2
                exact (List.pairwise_cons.1 hs).1 a (by simp)
              have hdom : 0 ≤ cross a c p := by
                refine inv.dom p hp (a, c) ?_
                refine hedgeD ?_
                rw [hDeq, edgesR_cons]
                exact List.mem_cons_self _ _
              exact wedge_newEdge hab (lexLe_x hpc)
                (lexLe_x (hq c (hDP c (by rw [hDeq]; simp)))) hdom hstop
  obtain ⟨c, tD, hDeq⟩ := List.exists_cons_of_ne_nil hDne
  refine ⟨List.cons_ne_nil _ _, ?_, ?_, ?_, ?_, ?_, ?_, ?_⟩
  · rw [List.reverse_cons]
    exact ((List.reverse_prefix.2 hsufD).sublist.trans inv.sub).append
      (List.Sublist.refl [q])
  · rw [List.reverse_cons]
    have h1 : (popWhile q acc).reverse.head? = acc.reverse.head? :=
      prefix_head? (List.reverse_prefix.2 hsufD) (by simpa using hDne)
    have h2 : ((popWhile q acc).reverse ++ [q]).head?
        = (popWhile q acc).reverse.head? := by
      cases hrev : (popWhile q acc).reverse with
      | nil => exact absurd (by simpa using hrev) hDne
      | cons x t => rfl
    rw [h2, h1, inv.head_eq]
    cases P with
    | nil => exact absurd rfl hPne
    | cons => rfl
  · rw [List.getLast?_concat]
    rfl
  · exact List.pairwise_cons.2 ⟨fun x hx => hDq x hx, hDsorted⟩
  · rw [hDeq]
    cases tD with
    | nil => exact RChain.pair q c
    | cons a t =>
        refine RChain.cons (popWhile_stop q acc c a t hDeq) ?_
        rw [← hDeq]
        exact hDchain
  · intro p hp e he
    rw [hDeq, edgesR_cons] at he
    rcases List.mem_append.1 hp with hp | hp
    · rcases List.mem_cons.1 he with rfl | he
      · exact hnew c tD hDeq p hp
      · refine inv.dom p hp e (hedgeD ?_)
        rw [hDeq]
        exact he
    · have hpq : p = q := by simpa using hp
      rw [hpq]
      rcases List.mem_cons.1 he with rfl | he
      · exact le_of_eq (cross_self_right c q).symm
      · refine le_of_lt (qDomChain q (popWhile q acc) hDchain hDsorted hDq
          (fun b a t h => popWhile_stop q acc b a t h) e ?_)
        rw [hDeq]
        exact he
  · refine List.pairwise_append.2 ⟨inv.psorted, List.pairwise_singleton _ _, ?_⟩
    intro p hp q' hq'
    rw [List.mem_singleton.1 hq']
    exact hq p hp

theorem chainInv_fold : ∀ (rest P acc : List Pt), ChainInv P acc →
    List.Pairwise lexLe (P ++ rest) → ChainInv (P ++ rest) (buildChain acc rest)
  | [], P, acc, inv, _ => by simpa using inv
  | q :: rest, P, acc, inv, hs => by
      rw [buildChain]
      have hq : ∀ p ∈ P, lexLe p q := by
        have h := (List.pairwise_append.1 hs).2.2
        exact fun p hp => h p hp q (by simp)
      have step := chainInv_step q inv hq
      have hs' : List.Pairwise lexLe ((P ++ [q]) ++ rest) := by
        rw [List.append_assoc]
        simpa using hs
      have res := chainInv_fold rest (P ++ [q]) (q :: popWhile q acc) step hs'
      rw [List.append_assoc] at res
      simpa using res

/-- Running the chain fold over a sorted, nonempty list establishes the
full invariant. -/
theorem chainInv_run (S : List Pt) (hS : S ≠ [])
    (hsorted : List.Pairwise lexLe S) : ChainInv S (buildChain [] S) := by
  obtain ⟨s0, S', rfl⟩ := List.exists_cons_of_ne_nil hS
  have base : ChainInv [s0] [s0] :=
    { ne := List.cons_ne_nil _ _
      sub := List.Sublist.refl _
      head_eq := rfl
      last_eq := rfl
      sorted := List.pairwise_singleton _ _
      chain := RChain.single s0
      dom := fun p _ e he => by cases he
      psorted := List.pairwise_singleton _ _ }
  have res := chainInv_fold S' [s0] [s0] base (by simpa using hsorted)
  rw [buildChain]
  simpa using res

/-! ### Strict ordering along the chains -/

/-- Strict lexicographic order on points. -/
def lexLt (a b : Pt) : Prop :=
  a.1 < b.1 ∨ (a.1 = b.1 ∧ a.2 < b.2)

theorem lexLt_trans {a b c : Pt} (h1 : lexLt a b) (h2 : lexLt b c) : lexLt a c := by
  unfold lexLt at *; omega

theorem lexLt_ne {a b : Pt} (h : lexLt a b) : a ≠ b := by
  intro he
  rw [he] at h
  unfold lexLt at h
  omega

theorem lexLt_of_le_ne {a b : Pt} (h : lexLe a b) (hne : a ≠ b) : lexLt a b := by
  have hxy : ¬(a.1 = b.1 ∧ a.2 = b.2) := fun hc => hne (Prod.ext hc.1 hc.2)
  unfold lexLe at h
  unfold lexLt
  rcases h with h | ⟨h1, h2⟩
  · exact Or.inl h
  · exact Or.inr ⟨h1, lt_of_le_of_ne h2 (fun hc => hxy ⟨h1, hc⟩)⟩

theorem lexLt_le {a b : Pt} (h : lexLt a b) : lexLe a b := by
  unfold lexLt at h; unfold lexLe; omega

/-- A list that is weakly descending with pairwise-adjacent distinct
entries is strictly descending. -/
theorem pairwise_strict_of_adj_ne : ∀ {l : List Pt},
    List.Pairwise (fun x y => lexLe y x) l →
    (∀ pre x y t, l = pre ++ x :: y :: t → x ≠ y) →
    List.Pairwise (fun x y => lexLt y x) l
  | [], _, _ => List.Pairwise.nil
  | [x], _, _ => List.pairwise_singleton _ _
  | x :: y :: t, hp, hne => by
      have hp' := List.pairwise_cons.1 hp
      have ih := pairwise_strict_of_adj_ne hp'.2
        (fun pre a b t' h => hne (x :: pre) a b t' (by rw [h]; rfl))
      refine List.pairwise_cons.2 ⟨?_, ih⟩
      intro z hz
      have hzx : lexLe z x := hp'.1 z hz
      have hxyne : x ≠ y := hne [] x y t rfl
      rcases List.mem_cons.1 hz with rfl | hz'
      · exact lexLt_of_le_ne hzx (fun he => hxyne he.symm)
      · refine lexLt_of_le_ne hzx ?_
        intro he
        have hzy : lexLe z y := (List.pairwise_cons.1 hp'.2).1 z hz'
        have hyx : lexLe y x := hp'.1 y (List.mem_cons_self _ _)
        subst he
        exact hxyne (lexLe_antisymm hzy hyx)

/-- A left-turning weakly descending chain with distinct endpoints is
strictly descending. -/
theorem chain_strict_sorted {acc : List Pt} (hch : RChain acc)
    (hs : List.Pairwise (fun x y => lexLe y x) acc) {top bot : Pt}
    (hh : acc.head? = some top) (hl : acc.getLast? = some bot)
    (hne : top ≠ bot) : List.Pairwise (fun x y => lexLt y x) acc := by
  refine pairwise_strict_of_adj_ne hs ?_
  intro pre x y t heq hxy
  subst hxy
  have hsuf : (x :: x :: t).IsSuffix acc := ⟨pre, heq.symm⟩
  have hacc2 := dup_suffix_eq hch hsuf
  rw [hacc2] at hh hl
  cases hh
  cases hl
  exact hne rfl

theorem pairwise_lt_getLast : ∀ {l : List Pt},
    List.Pairwise (fun x y => lexLt y x) l →
    ∀ {bot : Pt}, l.getLast? = some bot → ∀ w ∈ l, w ≠ bot → lexLt bot w
  | [], _, _, h, _, hw, _ => by cases h
  | x :: xs, hp, bot, hl, w, hw, hwb => by
      cases xs with
      | nil =>
          cases hl
          rcases List.mem_singleton.1 hw with rfl
          exact absurd rfl hwb
      | cons y ys =>
          rw [List.getLast?_cons_cons] at hl
          rcases List.mem_cons.1 hw with rfl | hw'
          · have hbmem : bot ∈ y :: ys := List.mem_of_mem_getLast? hl
            exact (List.pairwise_cons.1 hp).1 bot hbmem
          · exact pairwise_lt_getLast (List.pairwise_cons.1 hp).2 hl w hw' hwb

/-- Every interior vertex of a strictly descending, left-turning chain lies
strictly to the right of the chord from the chain's first point (`bot`) to
its last point (the head `a` of the reverse-held list). -/
theorem chord_acc : ∀ (acc : List Pt), RChain acc →
    List.Pairwise (fun x y => lexLt y x) acc →
    ∀ bot, acc.getLast? = some bot →
    ∀ a rest, acc = a :: rest → ∀ w ∈ rest, w ≠ bot → cross bot a w < 0
  | [], _, _, bot, hl, a, rest, heq, _, _, _ => by cases heq
  | [x], _, _, bot, hl, a, rest, heq, w, hw, hwb => by
      cases heq
      cases hw
  | [x, y], _, _, bot, hl, a, rest, heq, w, hw, hwb => by
      cases heq
      cases hl
      rcases List.mem_singleton.1 hw with rfl
      exact absurd rfl hwb
  | x :: y :: u :: t, hch, hs, bot, hl, a, rest, heq, w, hw, hwb => by
      cases heq
      have htri : 0 < cross u y x := by
        cases hch with
        | cons h3 _ => exact h3
      have hch' : RChain (y :: u :: t) := RChain_tail hch
      have hs' := (List.pairwise_cons.1 hs).2
      have hl' : (y :: u :: t).getLast? = some bot := by
        rw [List.getLast?_cons_cons] at hl
        rw [List.getLast?_cons_cons]
        exact hl
      have ih := chord_acc (y :: u :: t) hch' hs' bot hl' y (u :: t) rfl
      -- step 1: the new head `x` is strictly left of the old chord `(bot, y)`
      have hba : 0 < cross bot y x := by
        cases t with
        | nil =>
            cases hl'
            exact htri
        | cons t0 t1 =>
            have hune : u ≠ bot := by
              intro he
              subst he
              rw [List.getLast?_cons_cons, List.getLast?_cons_cons] at hl'
              have hmem : u ∈ t0 :: t1 := List.mem_of_mem_getLast? hl'
              have hlt := (List.pairwise_cons.1 (List.pairwise_cons.1 hs').2).1 u hmem
              exact lexLt_ne hlt rfl
            have hbu : 0 < cross bot u y := by
              have := ih u (List.mem_cons_self _ _) hune
              rw [cross_swap] at this
              omega
            have hbotu : lexLe bot u :=
              lexLt_le (pairwise_lt_getLast hs hl u (by simp) hune)
            have huy : lexLe u y :=
              lexLt_le ((List.pairwise_cons.1 hs').1 u (by simp))
            have hyx : lexLe y x :=
              lexLt_le ((List.pairwise_cons.1 hs).1 y (by simp))
            exact wedge_chordExt hbotu huy hyx hbu htri
      rcases List.mem_cons.1 hw with rfl | hw'
      · rw [cross_swap]
        omega
      · have hwy : cross bot y w < 0 := ih w hw' hwb
        have hbw : lexLt bot w := pairwise_lt_getLast hs hl w (by simp [hw']) hwb
        have hwylt : lexLt w y := (List.pairwise_cons.1 hs').1 w hw'
        have hyx : lexLt y x := (List.pairwise_cons.1 hs).1 y (by simp)
        refine wedge_rotChord ?_ ?_ ?_ hwy hba
        · rcases hbw with h | h <;> omega
        · rcases hwylt with h | h <;> omega
        · rcases hyx with h | h <;> omega

/-- The converse directions of the edge decompositions. -/
theorem edgesR_of_decomp : ∀ (pre post : List Pt) (u v : Pt),
    (u, v) ∈ edgesR (pre ++ v :: u :: post)
  | [], post, u, v => by
      show (u, v) ∈ edgesR (v :: u :: post)
      rw [edgesR_cons]
      exact List.mem_cons_self _ _
  | x :: pre, post, u, v => by
      have h := edgesR_of_decomp pre post u v
      have : edgesR (pre ++ v :: u :: post) ⊆ edgesR (x :: (pre ++ v :: u :: post)) :=
        edgesR_sub_cons x _
      exact this h

/-- Every vertex of a strictly descending, left-turning chain lies strictly
to the left of every chain edge it is not an endpoint of. -/
theorem chain_vertex_edge {acc : List Pt} (hch : RChain acc)
    (hs : List.Pairwise (fun x y => lexLt y x) acc) {u v w : Pt}
    (he : (u, v) ∈ edgesR acc) (hw : w ∈ acc) (hwu : w ≠ u) (hwv : w ≠ v) :
    0 < cross u v w := by
  obtain ⟨pre, post, hacc⟩ := edgesR_decomp he
  subst hacc
  have huv_lt : lexLt u v := by
    have hsubvu : ([v, u]).Sublist (pre ++ v :: u :: post) := by
      have h1 : ([v, u]).IsPrefix (v :: u :: post) := ⟨post, rfl⟩
      have h2 : (v :: u :: post).IsSuffix (pre ++ v :: u :: post) := ⟨pre, rfl⟩
      exact h1.sublist.trans h2.sublist
    exact (List.pairwise_cons.1 (hs.sublist hsubvu)).1 u (by simp)
  rcases List.mem_append.1 hw with hwpre | hwtail
  · -- `w` is newer than the edge: chord of the segment from `u` up to `w`
    obtain ⟨pre1, pre2, rfl⟩ := List.append_of_mem hwpre
    have hsuf : (w :: (pre2 ++ v :: u :: post)).IsSuffix
        ((pre1 ++ w :: pre2) ++ v :: u :: post) := ⟨pre1, by simp⟩
    have hchain1 : RChain (w :: (pre2 ++ v :: u :: post)) :=
      RChain_suffix hch hsuf
    have hchain2 : RChain (w :: (pre2 ++ [v, u])) := by
      have hchain0 : RChain ((w :: (pre2 ++ [v, u])) ++ post) := by
        have heq2 : (w :: (pre2 ++ [v, u])) ++ post
            = w :: (pre2 ++ v :: u :: post) := by simp
        rw [heq2]
        exact hchain1
      exact RChain_of_append_left hchain0
    have hsub : (w :: (pre2 ++ [v, u])).Sublist
        ((pre1 ++ w :: pre2) ++ v :: u :: post) := by
      have h1 : (w :: (pre2 ++ [v, u])).IsPrefix
          (w :: (pre2 ++ v :: u :: post)) := ⟨post, by simp⟩
      exact h1.sublist.trans hsuf.sublist
    have hs2 := hs.sublist hsub
    have hlast : (w :: (pre2 ++ [v, u])).getLast? = some u := by
      have heq3 : w :: (pre2 ++ [v, u]) = (w :: pre2 ++ [v]) ++ [u] := by simp
      rw [heq3, List.getLast?_concat]
    have hchord := chord_acc (w :: (pre2 ++ [v, u])) hchain2 hs2 u hlast
      w (pre2 ++ [v, u]) rfl v (by simp) (lexLt_ne huv_lt).symm
    have hsw := cross_swap u v w
    linarith
  · rcases List.mem_cons.1 hwtail with rfl | hwtail2
    · exact absurd rfl hwv
    rcases List.mem_cons.1 hwtail2 with rfl | hwpost
    · exact absurd rfl hwu
    · -- `w` is older than the edge: chord of the segment from `w` up to `v`
      obtain ⟨post1, post2, rfl⟩ := List.append_of_mem hwpost
      have hsuf : (v :: u :: (post1 ++ w :: post2)).IsSuffix
          (pre ++ v :: u :: (post1 ++ w :: post2)) := ⟨pre, rfl⟩
      have hchain1 : RChain (v :: u :: (post1 ++ w :: post2)) :=
        RChain_suffix hch hsuf
      have hchain2 : RChain ((v :: u :: post1) ++ [w]) := by
        have hchain0 : RChain (((v :: u :: post1) ++ [w]) ++ post2) := by
          have heq2 : ((v :: u :: post1) ++ [w]) ++ post2
              = v :: u :: (post1 ++ w :: post2) := by simp
          rw [heq2]
          exact hchain1
        exact RChain_of_append_left hchain0
      have hsub : ((v :: u :: post1) ++ [w]).Sublist
          (pre ++ v :: u :: (post1 ++ w :: post2)) := by
        have h1 : ((v :: u :: post1) ++ [w]).IsPrefix
            (v :: u :: (post1 ++ w :: post2)) := ⟨post2, by simp⟩
        exact h1.sublist.trans hsuf.sublist
      have hs2 := hs.sublist hsub
      have hlast : ((v :: u :: post1) ++ [w]).getLast? = some w :=
        List.getLast?_concat _
      have hchord := chord_acc ((v :: u :: post1) ++ [w]) hchain2 hs2 w hlast
        v (u :: post1 ++ [w]) rfl u (by simp) (fun h => hwu h.symm)
      have hsw := cross_swap13 u v w
      linarith

/-! ### Point negation: transport between the lower and upper chains.
Negating both coordinates reverses the lexicographic order and preserves
all cross products, so the upper-chain pass (which scans the sorted points
right to left) is the image under negation of a lower-chain pass. -/

def negPt (p : Pt) : Pt := (-p.1, -p.2)

theorem negPt_negPt (p : Pt) : negPt (negPt p) = p := by
  unfold negPt
  simp

theorem map_negPt_negPt (l : List Pt) : (l.map negPt).map negPt = l := by
  rw [List.map_map]
  have he : (negPt ∘ negPt) = id := funext negPt_negPt
  rw [he, List.map_id]

theorem negPt_inj {a b : Pt} (h : negPt a = negPt b) : a = b := by
  rw [← negPt_negPt a, h, negPt_negPt]

theorem cross_negPt (o a b : Pt) : cross (negPt o) (negPt a) (negPt b) = cross o a b := by
  unfold cross negPt
  ring

theorem lexLe_negPt {a b : Pt} : lexLe (negPt a) (negPt b) ↔ lexLe b a := by
  show (-a.1 < -b.1 ∨ (-a.1 = -b.1 ∧ -a.2 ≤ -b.2)) ↔
    (b.1 < a.1 ∨ (b.1 = a.1 ∧ b.2 ≤ a.2))
  omega

theorem lexLt_negPt {a b : Pt} : lexLt (negPt a) (negPt b) ↔ lexLt b a := by
  show (-a.1 < -b.1 ∨ (-a.1 = -b.1 ∧ -a.2 < -b.2)) ↔
    (b.1 < a.1 ∨ (b.1 = a.1 ∧ b.2 < a.2))
  omega

theorem popWhile_negPt (q : Pt) : ∀ acc : List Pt,
    popWhile (negPt q) (acc.map negPt) = (popWhile q acc).map negPt
  | [] => rfl
  | [a] => rfl
  | b :: a :: t => by
      have e1 : popWhile (negPt q) (negPt b :: negPt a :: t.map negPt)
          = if cross (negPt a) (negPt b) (negPt q) ≤ 0
            then popWhile (negPt q) (negPt a :: t.map negPt)
            else negPt b :: negPt a :: t.map negPt := rfl
      have e2 : popWhile q (b :: a :: t)
          = if cross a b q ≤ 0 then popWhile q (a :: t) else b :: a :: t := rfl
      rw [List.map_cons, List.map_cons, e1, e2, cross_negPt]
      by_cases h : cross a b q ≤ 0
      · rw [if_pos h, if_pos h]
        exact popWhile_negPt q (a :: t)
      · rw [if_neg h, if_neg h, List.map_cons, List.map_cons]

theorem buildChain_negPt : ∀ (l acc : List Pt),
    buildChain (acc.map negPt) (l.map negPt) = (buildChain acc l).map negPt
  | [], acc => rfl
  | q :: rest, acc => by
      have e1 : buildChain (acc.map negPt) (negPt q :: rest.map negPt)
          = buildChain (negPt q :: popWhile (negPt q) (acc.map negPt))
              (rest.map negPt) := rfl
      have e2 : buildChain acc (q :: rest)
          = buildChain (q :: popWhile q acc) rest := rfl
      rw [List.map_cons, e1, e2, popWhile_negPt]
      exact buildChain_negPt rest (q :: popWhile q acc)

theorem edgesR_map_negPt {l : List Pt} {u v : Pt} :
    (u, v) ∈ edgesR (l.map negPt) ↔ (negPt u, negPt v) ∈ edgesR l := by
  constructor
  · intro h
    obtain ⟨p, q, hpq⟩ := edgesR_decomp h
    have hl : l = p.map negPt ++ negPt v :: negPt u :: q.map negPt := by
      have h2 := congrArg (List.map negPt) hpq
      rw [map_negPt_negPt] at h2
      rw [h2, List.map_append, List.map_cons, List.map_cons]
    rw [hl]
    exact edgesR_of_decomp _ _ _ _
  · intro h
    obtain ⟨p, q, hpq⟩ := edgesR_decomp h
    rw [hpq, List.map_append, List.map_cons, List.map_cons]
    have h3 : negPt (negPt v) = v := negPt_negPt v
    have h4 : negPt (negPt u) = u := negPt_negPt u
    rw [h3, h4]
    exact edgesR_of_decomp _ _ _ _

/-! ### Polygon edge lists -/

/-- Adjacent pairs of a vertex list (without the closing edge). -/
def adjPairs : List Pt → List (Pt × Pt)
  | x :: y :: t => (x, y) :: adjPairs (y :: t)
  | _ => []

theorem adjPairs_decomp : ∀ {l : List Pt} {x y : Pt}, (x, y) ∈ adjPairs l →
    ∃ p q, l = p ++ x :: y :: q
  | [], _, _, h => by cases h
  | [a], _, _, h => by cases h
  | a :: b :: t, x, y, h => by
      rw [show adjPairs (a :: b :: t) = (a, b) :: adjPairs (b :: t) from rfl] at h
      rcases List.mem_cons.1 h with he | h2
      · cases he
        exact ⟨[], t, rfl⟩
      · obtain ⟨p, q, hpq⟩ := adjPairs_decomp h2
        refine ⟨a :: p, q, ?_⟩
        rw [List.cons_append, ← hpq]

theorem adjPairs_of_decomp : ∀ (p : List Pt) (x y : Pt) (q : List Pt),
    (x, y) ∈ adjPairs (p ++ x :: y :: q)
  | [], x, y, q => by
      rw [List.nil_append,
        show adjPairs (x :: y :: q) = (x, y) :: adjPairs (y :: q) from rfl]
      exact List.mem_cons_self _ _
  | a :: p, x, y, q => by
      rw [List.cons_append]
      have h := adjPairs_of_decomp p x y q
      cases hpp : p ++ x :: y :: q with
      | nil => simp at hpp
      | cons m0 M =>
          rw [hpp] at h
          rw [show adjPairs (a :: m0 :: M) = (a, m0) :: adjPairs (m0 :: M) from rfl]
          exact List.mem_cons_of_mem _ h

theorem adjPairs_reverse_edgesR {l : List Pt} {u v : Pt} :
    (u, v) ∈ adjPairs l.reverse ↔ (u, v) ∈ edgesR l := by
  constructor
  · intro h
    obtain ⟨p, q, hpq⟩ := adjPairs_decomp h
    have hl : l = q.reverse ++ v :: u :: p.reverse := by
      have h2 := congrArg List.reverse hpq
      rw [List.reverse_reverse] at h2
      rw [h2]
      simp
    rw [hl]
    exact edgesR_of_decomp _ _ _ _
  · intro h
    obtain ⟨p, q, hpq⟩ := edgesR_decomp h
    have hl : l.reverse = q.reverse ++ u :: v :: p.reverse := by
      rw [hpq]
      simp
    rw [hl]
    exact adjPairs_of_decomp _ _ _ _

theorem cpAux_eq : ∀ (first b : Pt) (l : List Pt), l.getLast? = some b →
    cpAux first l = adjPairs l ++ [(b, first)]
  | first, b, [], h => by cases h
  | first, b, [x], h => by
      rw [List.getLast?_singleton] at h
      injection h with h
      subst h
      rfl
  | first, b, x :: y :: t, h => by
      rw [List.getLast?_cons_cons] at h
      rw [show cpAux first (x :: y :: t) = (x, y) :: cpAux first (y :: t) from rfl,
        cpAux_eq first b (y :: t) h,
        show adjPairs (x :: y :: t) = (x, y) :: adjPairs (y :: t) from rfl]
      rfl

theorem adjPairs_append : ∀ (X : List Pt) (h : Pt) (Y : List Pt),
    adjPairs (X ++ h :: Y) = adjPairs (X ++ [h]) ++ adjPairs (h :: Y)
  | [], h, Y => rfl
  | [a], h, Y => rfl
  | a :: b :: X, h, Y => by
      show (a, b) :: adjPairs ((b :: X) ++ h :: Y)
          = (a, b) :: (adjPairs ((b :: X) ++ [h]) ++ adjPairs (h :: Y))
      rw [adjPairs_append (b :: X) h Y]

theorem adjPairs_concat : ∀ (l : List Pt) (b a : Pt), l.getLast? = some b →
    adjPairs (l ++ [a]) = adjPairs l ++ [(b, a)]
  | [], b, a, h => by cases h
  | [x], b, a, h => by
      rw [List.getLast?_singleton] at h
      injection h with h
      subst h
      rfl
  | x :: y :: t, b, a, h => by
      rw [List.getLast?_cons_cons] at h
      show (x, y) :: adjPairs ((y :: t) ++ [a])
          = (x, y) :: (adjPairs (y :: t) ++ [(b, a)])
      rw [adjPairs_concat (y :: t) b a h]

/-! ### Miscellaneous list facts -/

theorem length_two_le_of_ne : ∀ {l : List Pt} {a b : Pt}, l.head? = some a →
    l.getLast? = some b → a ≠ b → 2 ≤ l.length
  | [], a, b, hh, _, _ => by cases hh
  | [x], a, b, hh, hl, hne => by
      rw [List.head?_cons] at hh
      rw [List.getLast?_singleton] at hl
      injection hh with hh
      injection hl with hl
      subst hh
      exact absurd hl hne
  | x :: y :: t, a, b, _, _, _ => by
      simp only [List.length_cons]
      omega

theorem eq_pair_of_length_two : ∀ {l : List Pt} {a b : Pt}, l.length = 2 →
    l.head? = some a → l.getLast? = some b → l = [a, b]
  | [], a, b, hlen, _, _ => by simp at hlen
  | [x], a, b, hlen, _, _ => by simp at hlen
  | [x, y], a, b, _, hh, hl => by
      rw [List.head?_cons] at hh
      rw [List.getLast?_cons_cons, List.getLast?_singleton] at hl
      injection hh with h1
      injection hl with h2
      rw [← h1, ← h2]
  | x :: y :: z :: t, a, b, hlen, _, _ => by
      simp only [List.length_cons] at hlen
      omega

theorem reverse_dropLast : ∀ (l : List Pt), l.reverse.dropLast = l.tail.reverse
  | [] => rfl
  | a :: t => by
      rw [List.reverse_cons, List.dropLast_concat, List.tail_cons]

theorem edgesR_mem {l : List Pt} {u v : Pt} (h : (u, v) ∈ edgesR l) :
    u ∈ l ∧ v ∈ l := by
  obtain ⟨p, q, hpq⟩ := edgesR_decomp h
  subst hpq
  constructor <;> simp

theorem edgesR_lt {l : List Pt} (hs : List.Pairwise (fun x y => lexLt y x) l)
    {u v : Pt} (he : (u, v) ∈ edgesR l) : lexLt u v := by
  obtain ⟨p, q, hpq⟩ := edgesR_decomp he
  subst hpq
  have hsub : ([v, u]).Sublist (p ++ v :: u :: q) := by
    have h1 : ([v, u]).IsPrefix (v :: u :: q) := ⟨q, rfl⟩
    have h2 : (v :: u :: q).IsSuffix (p ++ v :: u :: q) := ⟨p, rfl⟩
    exact h1.sublist.trans h2.sublist
  exact (List.pairwise_cons.1 (hs.sublist hsub)).1 u (by simp)

theorem nodup_of_strict {l : List Pt}
    (hs : List.Pairwise (fun x y => lexLt y x) l) : l.Nodup :=
  hs.imp fun h => (lexLt_ne h).symm

theorem nodup_of_strict_asc {l : List Pt} (hs : List.Pairwise lexLt l) :
    l.Nodup :=
  hs.imp fun h => lexLt_ne h

/-! ### The sort step (line 240) -/

theorem sortPoints_perm (l : List Pt) : (sortPoints l).Perm l :=
  List.perm_insertionSort lexLe l

theorem sortPoints_sorted (l : List Pt) : List.Pairwise lexLe (sortPoints l) :=
  List.sorted_insertionSort lexLe l

theorem sortPoints_mem {l : List Pt} {p : Pt} : p ∈ sortPoints l ↔ p ∈ l :=
  (sortPoints_perm l).mem_iff

theorem sortPoints_length (l : List Pt) : (sortPoints l).length = l.length :=
  (sortPoints_perm l).length_eq

theorem cons_of_head? {l : List Pt} {a : Pt} (h : l.head? = some a) :
    ∃ t, l = a :: t := by
  cases l with
  | nil => cases h
  | cons x t =>
      rw [List.head?_cons] at h
      injection h with h
      exact ⟨t, by rw [h]⟩

/-- The closed edge cycle of the glued hull decomposes into the forward
edges of the two chains: the lower chain contributes its edges plus the
edge into the maximal point, the upper chain its edges plus the closing
edge back into the minimal point. -/
theorem cyclicPairs_glue (s1 s0 y1 : Pt) (ltl lutl : List Pt)
    (hl0 : ltl.getLast? = some s0) (hl1 : lutl.getLast? = some s1)
    (hy1 : lutl.head? = some y1) :
    cyclicPairs (ltl.reverse ++ lutl.reverse)
      = adjPairs ((s1 :: ltl).reverse) ++ adjPairs ((s0 :: lutl).reverse) := by
  obtain ⟨X', hX⟩ : ∃ t, ltl.reverse = s0 :: t := by
    refine cons_of_head? ?_
    rw [List.head?_reverse]
    exact hl0
  obtain ⟨Y', hY⟩ : ∃ t, lutl.reverse = s1 :: t := by
    refine cons_of_head? ?_
    rw [List.head?_reverse]
    exact hl1
  have hYlast : (s1 :: Y').getLast? = some y1 := by
    rw [← hY, List.getLast?_reverse]
    exact hy1
  rw [List.reverse_cons, List.reverse_cons, hX, hY]
  have hHlast : ((s0 :: X') ++ s1 :: Y').getLast? = some y1 := by
    rw [List.getLast?_append_of_ne_nil]
    · exact hYlast
    · exact List.cons_ne_nil _ _
  have hLHS : cyclicPairs ((s0 :: X') ++ s1 :: Y')
      = cpAux s0 ((s0 :: X') ++ s1 :: Y') := by
    rw [List.cons_append]
    rfl
  rw [hLHS, cpAux_eq s0 y1 _ hHlast, adjPairs_append (s0 :: X') s1 Y',
    List.append_assoc, adjPairs_concat (s1 :: Y') y1 s0 hYlast]

/-- Core correctness of the two-chain construction: for a sorted permutation
`S` of the not-all-collinear input `pts`, gluing the interiors of the two
monotone chains yields a convex hull of `pts`. -/
theorem hull_assembly (pts S : List Pt)
    (hperm : S.Perm pts) (hsorted : List.Pairwise lexLe S)
    (h3 : 3 ≤ S.length) (hnc : ¬ AllCollinear pts) :
    IsConvexHullOf pts
      ((buildChain [] S).tail.reverse
        ++ (buildChain [] S.reverse).tail.reverse) := by
  have hSne : S ≠ [] := by
    intro h
    rw [h] at h3
    simp at h3
  obtain ⟨s0, S1, hS⟩ := List.exists_cons_of_ne_nil hSne
  have hs0 : S.head? = some s0 := by rw [hS]; rfl
  obtain ⟨s1, hs1⟩ : ∃ x, S.getLast? = some x :=
    ⟨S.getLast hSne, List.getLast?_eq_getLast S hSne⟩
  have hs0S : s0 ∈ S := by rw [hS]; exact List.mem_cons_self _ _
  have hs1S : s1 ∈ S := List.mem_of_mem_getLast? hs1
  have hs0pts : s0 ∈ pts := hperm.mem_iff.1 hs0S
  have hs1pts : s1 ∈ pts := hperm.mem_iff.1 hs1S
  have hmin : ∀ p ∈ S, lexLe s0 p := pairwise_head_le hsorted hs0
  have hmax : ∀ p ∈ S, lexLe p s1 := pairwise_le_getLast hsorted hs1
  have hs01 : s0 ≠ s1 := by
    intro he
    apply hnc
    intro p hp q hq r hr
    rw [← he] at hs1
    have hp0 := all_eq_of_head_last hsorted hs0 hs1 p (hperm.mem_iff.2 hp)
    have hq0 := all_eq_of_head_last hsorted hs0 hs1 q (hperm.mem_iff.2 hq)
    have hr0 := all_eq_of_head_last hsorted hs0 hs1 r (hperm.mem_iff.2 hr)
    rw [hp0, hq0, hr0]
    exact cross_self_right s0 s0
  -- the lower chain
  have invL := chainInv_run S hSne hsorted
  obtain ⟨L, hL⟩ : ∃ x, buildChain [] S = x := ⟨_, rfl⟩
  rw [hL] at invL ⊢
  have hLhead : L.head? = some s1 := invL.last_eq.trans hs1
  have hLlast : L.getLast? = some s0 := by
    have h0 := invL.head_eq
    rw [List.head?_reverse] at h0
    exact h0.trans hs0
  have hLmem : ∀ x ∈ L, x ∈ S := fun x hx =>
    invL.sub.subset (List.mem_reverse.2 hx)
  have strictL : List.Pairwise (fun x y => lexLt y x) L :=
    chain_strict_sorted invL.chain invL.sorted hLhead hLlast (Ne.symm hs01)
  have hLlen2 : 2 ≤ L.length := length_two_le_of_ne hLhead hLlast (Ne.symm hs01)
  obtain ⟨ltl, hLc⟩ := cons_of_head? hLhead
  have hltlne : ltl ≠ [] := by
    intro h
    rw [hLc, h] at hLlen2
    simp at hLlen2
  have hltl_last : ltl.getLast? = some s0 := by
    obtain ⟨m0, ltl2, hltlc⟩ := List.exists_cons_of_ne_nil hltlne
    rw [hltlc]
    rw [hLc, hltlc, List.getLast?_cons_cons] at hLlast
    exact hLlast
  have lowCh : ∀ w ∈ ltl, w ≠ s0 → cross s0 s1 w < 0 := fun w hw hwne =>
    chord_acc L invL.chain strictL s0 hLlast s1 ltl hLc w hw hwne
  -- the upper chain, as the negated image of a lower-chain pass
  have hT'sorted : List.Pairwise lexLe (S.reverse.map negPt) := by
    rw [List.pairwise_map, List.pairwise_reverse]
    exact hsorted.imp fun h => lexLe_negPt.2 h
  have hT'ne : S.reverse.map negPt ≠ [] := by
    simp [hSne]
  have hT'head : (S.reverse.map negPt).head? = some (negPt s1) := by
    rw [List.head?_map, List.head?_reverse, hs1]
    rfl
  have hT'last : (S.reverse.map negPt).getLast? = some (negPt s0) := by
    rw [List.map_reverse, List.getLast?_reverse, List.head?_map, hs0]
    rfl
  have invU := chainInv_run (S.reverse.map negPt) hT'ne hT'sorted
  obtain ⟨Lu', hLu'⟩ : ∃ x, buildChain [] (S.reverse.map negPt) = x := ⟨_, rfl⟩
  rw [hLu'] at invU
  have hLu : buildChain [] S.reverse = Lu'.map negPt := by
    have h1 := buildChain_negPt (S.reverse.map negPt) []
    rw [map_negPt_negPt] at h1
    simp only [List.map_nil] at h1
    rw [h1, hLu']
  rw [hLu]
  have hLu'head : Lu'.head? = some (negPt s0) := invU.last_eq.trans hT'last
  have hLu'last : Lu'.getLast? = some (negPt s1) := by
    have h0 := invU.head_eq
    rw [List.head?_reverse] at h0
    exact h0.trans hT'head
  have hLu'mem : ∀ x ∈ Lu', x ∈ S.reverse.map negPt := fun x hx =>
    invU.sub.subset (List.mem_reverse.2 hx)
  have strictU' : List.Pairwise (fun x y => lexLt y x) Lu' :=
    chain_strict_sorted invU.chain invU.sorted hLu'head hLu'last
      (fun h => hs01 (negPt_inj h))
  have hLumem : ∀ x ∈ Lu'.map negPt, x ∈ S := by
    intro x hx
    obtain ⟨y, hy, hxy⟩ := List.mem_map.1 hx
    obtain ⟨z, hz, hyz⟩ := List.mem_map.1 (hLu'mem y hy)
    rw [← hxy, ← hyz, negPt_negPt]
    exact List.mem_reverse.1 hz
  have hLuhead : (Lu'.map negPt).head? = some s0 := by
    rw [List.head?_map, hLu'head]
    simp [negPt_negPt]
  have hLulast : (Lu'.map negPt).getLast? = some s1 := by
    rw [← List.head?_reverse, ← List.map_reverse, List.head?_map,
      List.head?_reverse, hLu'last]
    simp [negPt_negPt]
  have strictLu : List.Pairwise lexLt (Lu'.map negPt) := by
    rw [List.pairwise_map]
    exact strictU'.imp fun h => lexLt_negPt.2 h
  have hLulen2 : 2 ≤ (Lu'.map negPt).length :=
    length_two_le_of_ne hLuhead hLulast hs01
  obtain ⟨lutl, hLuc⟩ := cons_of_head? hLuhead
  have hlutlne : lutl ≠ [] := by
    intro h
    rw [hLuc, h] at hLulen2
    simp at hLulen2
  obtain ⟨y1, lutl2, hlutlc⟩ := List.exists_cons_of_ne_nil hlutlne
  have hy1head : lutl.head? = some y1 := by rw [hlutlc]; rfl
  have hlutl_last : lutl.getLast? = some s1 := by
    rw [hlutlc]
    rw [hLuc, hlutlc, List.getLast?_cons_cons] at hLulast
    exact hLulast
  -- chord bound for the upper chain
  obtain ⟨lutl0, hLu'c⟩ := cons_of_head? hLu'head
  have hlutl_eq : lutl = lutl0.map negPt := by
    have h1 : Lu'.map negPt = s0 :: lutl0.map negPt := by
      rw [hLu'c, List.map_cons, negPt_negPt]
    rw [hLuc] at h1
    exact (List.cons.inj h1).2
  have upCh : ∀ w ∈ lutl, w ≠ s1 → 0 < cross s0 s1 w := by
    intro w hw hwne
    rw [hlutl_eq] at hw
    obtain ⟨z, hz, hwz⟩ := List.mem_map.1 hw
    have hzne : z ≠ negPt s1 := by
      intro h
      apply hwne
      rw [← hwz, h, negPt_negPt]
    have hchord := chord_acc Lu' invU.chain strictU' (negPt s1) hLu'last
      (negPt s0) lutl0 hLu'c z hz hzne
    have hzw : negPt w = z := by rw [← hwz, negPt_negPt]
    rw [← hzw, cross_negPt] at hchord
    have h4 := cross_swap12 s0 s1 w
    linarith
  -- domination of all input points by all chain edges
  have domL : ∀ p ∈ pts, ∀ u v : Pt, (u, v) ∈ edgesR L → 0 ≤ cross u v p :=
    fun p hp u v he => invL.dom p (hperm.mem_iff.2 hp) (u, v) he
  have domU : ∀ p ∈ pts, ∀ u v : Pt, (u, v) ∈ edgesR (Lu'.map negPt) →
      0 ≤ cross u v p := by
    intro p hp u v he
    have he2 := edgesR_map_negPt.1 he
    have hpT : negPt p ∈ S.reverse.map negPt :=
      List.mem_map_of_mem _ (List.mem_reverse.2 (hperm.mem_iff.2 hp))
    have h0 := invU.dom (negPt p) hpT (negPt u, negPt v) he2
    rw [← cross_negPt u v p]
    exact h0
  -- strict vertex-edge separation within each chain
  have cveL : ∀ u v w : Pt, (u, v) ∈ edgesR L → w ∈ L → w ≠ u → w ≠ v →
      0 < cross u v w :=
    fun u v w he hw hwu hwv => chain_vertex_edge invL.chain strictL he hw hwu hwv
  have cveU : ∀ u v w : Pt, (u, v) ∈ edgesR (Lu'.map negPt) →
      w ∈ Lu'.map negPt → w ≠ u → w ≠ v → 0 < cross u v w := by
    intro u v w he hw hwu hwv
    have he2 := edgesR_map_negPt.1 he
    obtain ⟨z, hz, hwz⟩ := List.mem_map.1 hw
    have hzw : negPt w = z := by rw [← hwz, negPt_negPt]
    have hwmem : negPt w ∈ Lu' := by rw [hzw]; exact hz
    have hne1 : negPt w ≠ negPt u := fun h => hwu (negPt_inj h)
    have hne2 : negPt w ≠ negPt v := fun h => hwv (negPt_inj h)
    have h0 := chain_vertex_edge invU.chain strictU' he2 hwmem hne1 hne2
    rw [cross_negPt] at h0
    exact h0
  have eltL : ∀ u v : Pt, (u, v) ∈ edgesR L → lexLt u v :=
    fun u v he => edgesR_lt strictL he
  have eltU : ∀ u v : Pt, (u, v) ∈ edgesR (Lu'.map negPt) → lexLt v u := by
    intro u v he
    exact lexLt_negPt.1 (edgesR_lt strictU' (edgesR_map_negPt.1 he))
  -- identify the glued vertex list and its edge cycle
  have hHeq : L.tail.reverse ++ (Lu'.map negPt).tail.reverse
      = ltl.reverse ++ lutl.reverse := by
    rw [hLc, hLuc]
    rfl
  rw [hHeq]
  have hglue := cyclicPairs_glue s1 s0 y1 ltl lutl hltl_last hlutl_last hy1head
  have eclass : ∀ u v : Pt, (u, v) ∈ cyclicPairs (ltl.reverse ++ lutl.reverse) →
      (u, v) ∈ edgesR L ∨ (u, v) ∈ edgesR (Lu'.map negPt) := by
    intro u v he
    rw [hglue] at he
    rcases List.mem_append.1 he with h | h
    · left
      rw [← hLc] at h
      exact adjPairs_reverse_edgesR.1 h
    · right
      rw [← hLuc] at h
      exact adjPairs_reverse_edgesR.1 h
  -- membership of the poles in both chains
  have hs1L : s1 ∈ L := by rw [hLc]; exact List.mem_cons_self _ _
  have hs0L : s0 ∈ L := List.mem_of_mem_getLast? hLlast
  have hs0Lu : s0 ∈ Lu'.map negPt := by rw [hLuc]; exact List.mem_cons_self _ _
  have hs1Lu : s1 ∈ Lu'.map negPt := List.mem_of_mem_getLast? hLulast
  -- interior points avoid the opposite pole
  have hXs1 : ∀ w ∈ ltl, w ≠ s1 := by
    intro w hw
    have h2 := strictL
    rw [hLc] at h2
    exact lexLt_ne ((List.pairwise_cons.1 h2).1 w hw)
  have hYs0 : ∀ w ∈ lutl, w ≠ s0 := by
    intro w hw
    have h2 := strictLu
    rw [hLuc] at h2
    have h3 := (List.pairwise_cons.1 h2).1 w hw
    exact fun he => lexLt_ne h3 he.symm
  have hltlL : ∀ w ∈ ltl, w ∈ L := by
    intro w hw
    rw [hLc]
    exact List.mem_cons_of_mem _ hw
  have hlutlLu : ∀ w ∈ lutl, w ∈ Lu'.map negPt := by
    intro w hw
    rw [hLuc]
    exact List.mem_cons_of_mem _ hw
  -- the strict vertex-edge property of the glued polygon
  have hstrict : ∀ e ∈ cyclicPairs (ltl.reverse ++ lutl.reverse),
      ∀ w ∈ ltl.reverse ++ lutl.reverse, w ≠ e.1 → w ≠ e.2 →
      0 < cross e.1 e.2 w := by
    rintro ⟨u, v⟩ he w hw hwu hwv
    have hwm : w ∈ ltl ∨ w ∈ lutl := by
      rcases List.mem_append.1 hw with h | h
      · exact Or.inl (List.mem_reverse.1 h)
      · exact Or.inr (List.mem_reverse.1 h)
    rcases eclass u v he with heL | heU
    · rcases hwm with hX | hY
      · exact cveL u v w heL (hltlL w hX) hwu hwv
      · by_cases hws1 : w = s1
        · refine cveL u v w heL ?_ hwu hwv
          rw [hws1]
          exact hs1L
        · have hwS : w ∈ S := hLumem w (hlutlLu w hY)
          have hge := domL w (hperm.mem_iff.1 hwS) u v heL
          rcases lt_or_eq_of_le hge with hlt | heq0
          · exact hlt
          · exfalso
            have hmemuv := edgesR_mem heL
            have huS : u ∈ S := hLmem u hmemuv.1
            have hvS : v ∈ S := hLmem v hmemuv.2
            have hltuv := eltL u v heL
            have hwedge := wedge_crossChain (hmin u huS) (lexLt_le hltuv)
              (lexLt_ne hltuv) (hmax v hvS) (hmin w hwS) (hmax w hwS)
              heq0.symm (domL s0 hs0pts u v heL) (domL s1 hs1pts u v heL)
            have hup := upCh w hY hws1
            linarith
    · rcases hwm with hX | hY
      case inr => exact cveU u v w heU (hlutlLu w hY) hwu hwv
      · by_cases hws0 : w = s0
        · refine cveU u v w heU ?_ hwu hwv
          rw [hws0]
          exact hs0Lu
        · have hwS : w ∈ S := hLmem w (hltlL w hX)
          have hge := domU w (hperm.mem_iff.1 hwS) u v heU
          rcases lt_or_eq_of_le hge with hlt | heq0
          · exact hlt
          · exfalso
            have hmemuv := edgesR_mem heU
            have huS : u ∈ S := hLumem u hmemuv.1
            have hvS : v ∈ S := hLumem v hmemuv.2
            have hltvu := eltU u v heU
            have hwedge := wedge_crossChain
              (lexLe_negPt.2 (hmax u huS))
              (lexLe_negPt.2 (lexLt_le hltvu))
              (fun h => (lexLt_ne hltvu) (negPt_inj h).symm)
              (lexLe_negPt.2 (hmin v hvS))
              (lexLe_negPt.2 (hmax w hwS))
              (lexLe_negPt.2 (hmin w hwS))
              (by rw [cross_negPt]; exact heq0.symm)
              (by rw [cross_negPt]; exact domU s1 hs1pts u v heU)
              (by rw [cross_negPt]; exact domU s0 hs0pts u v heU)
            rw [cross_negPt] at hwedge
            have hlow := lowCh w hX hws0
            have h4 := cross_swap12 s0 s1 w
            linarith
  refine ⟨?_, ?_, ?_, hstrict, ?_, ?_⟩
  · -- at least three vertices
    have hlen3 : 3 ≤ ltl.length + lutl.length := by
      by_contra hcon
      have e1 : 1 ≤ ltl.length := List.length_pos.2 hltlne
      have e2 : 1 ≤ lutl.length := List.length_pos.2 hlutlne
      have h1 : ltl.length = 1 ∧ lutl.length = 1 := by omega
      have hLlen : L.length = 2 := by
        rw [hLc]
        simp only [List.length_cons, h1.1]
      have hLueq : (Lu'.map negPt).length = 2 := by
        rw [hLuc]
        simp only [List.length_cons, h1.2]
      have hLpair : L = [s1, s0] := eq_pair_of_length_two hLlen hLhead hLlast
      have hLupair : Lu'.map negPt = [s0, s1] :=
        eq_pair_of_length_two hLueq hLuhead hLulast
      apply hnc
      have hall : ∀ p ∈ pts, cross s0 s1 p = 0 := by
        intro p hp
        have h2 : 0 ≤ cross s0 s1 p := by
          apply domL p hp
          rw [hLpair]
          exact List.mem_singleton.2 rfl
        have h3 : 0 ≤ cross s1 s0 p := by
          apply domU p hp
          rw [hLupair]
          exact List.mem_singleton.2 rfl
        have h4 := cross_swap12 s0 s1 p
        linarith
      intro p hp q hq r hr
      exact collinear_transfer hs01 (hall p hp) (hall q hq) (hall r hr)
    rw [List.length_append, List.length_reverse, List.length_reverse]
    exact hlen3
  · -- the vertices are pairwise distinct
    have hXnodup : (ltl.reverse).Nodup := by
      rw [List.nodup_reverse]
      have h2 := nodup_of_strict strictL
      rw [hLc] at h2
      exact (List.nodup_cons.1 h2).2
    have hYnodup : (lutl.reverse).Nodup := by
      rw [List.nodup_reverse]
      have h2 := nodup_of_strict_asc strictLu
      rw [hLuc] at h2
      exact (List.nodup_cons.1 h2).2
    rw [List.nodup_append]
    refine ⟨hXnodup, hYnodup, ?_⟩
    intro a ha hb
    have haX := List.mem_reverse.1 ha
    have hbY := List.mem_reverse.1 hb
    have hlow := lowCh a haX (hYs0 a hbY)
    have hup := upCh a hbY (hXs1 a haX)
    linarith
  · -- every vertex is an input point
    intro x hx
    rcases List.mem_append.1 hx with h | h
    · exact hperm.mem_iff.1 (hLmem x (hltlL x (List.mem_reverse.1 h)))
    · exact hperm.mem_iff.1 (hLumem x (hlutlLu x (List.mem_reverse.1 h)))
  · -- every input point is inside or on every edge
    rintro p hp ⟨u, v⟩ he
    rcases eclass u v he with h | h
    · exact domL p hp u v h
    · exact domU p hp u v h
  · -- vertices are not interior to edges
    rintro p hp ⟨u, v⟩ he hzero hpH
    by_contra hcon
    push_neg at hcon
    exact absurd hzero (ne_of_gt (hstrict (u, v) he p hpH hcon.1 hcon.2))

/-- C1 (amended): for every point set of at least three points that are not
all collinear, `convexHull` (bot.js lines 232–270) returns a simple convex
polygon — an ordered vertex sequence of at least three pairwise-distinct
input points with no closing duplicate, traversed with strictly convex turns
— that contains every input point, and any input point lying exactly on a
hull edge without being one of its endpoints is excluded from the vertex
list. (As literally stated, over all inputs of size ≥ 3, the claim fails on
all-collinear inputs, for which fewer than three vertices are returned; see
the counterexample.) -/
theorem convexHull_correct (pts : List Pt) (h3 : 3 ≤ pts.length)
    (hnc : ¬ AllCollinear pts) : IsConvexHullOf pts (convexHull pts) := by
  have hH : convexHull pts
      = (buildChain [] (sortPoints pts)).tail.reverse
        ++ (buildChain [] (sortPoints pts).reverse).tail.reverse := by
    unfold convexHull
    rw [if_neg (not_lt.2 h3)]
    show (buildChain [] (sortPoints pts)).reverse.dropLast
        ++ (buildChain [] (sortPoints pts).reverse).reverse.dropLast = _
    rw [reverse_dropLast, reverse_dropLast]
  rw [hH]
  exact hull_assembly pts (sortPoints pts) (sortPoints_perm pts)
    (sortPoints_sorted pts) (by rw [sortPoints_length]; exact h3) hnc

/-- C1, counterexample to the claim as frozen ("for every point set of
size ≥ 3"): on the collinear input `[(0,0), (1,1), (2,2)]` — three distinct
points — the routine returns only the two extreme points, which is not a
convex polygon with at least three vertices. -/
theorem convexHull_correct_cex :
    3 ≤ ([((0 : ℤ), (0 : ℤ)), (1, 1), (2, 2)] : List Pt).length ∧
    ¬ IsConvexHullOf [((0 : ℤ), (0 : ℤ)), (1, 1), (2, 2)]
        (convexHull [((0 : ℤ), (0 : ℤ)), (1, 1), (2, 2)]) := by
  constructor
  · decide
  · decide

/-- Witness for the amended hull-correctness theorem: a concrete six-point
input (a square plus an interior point and an edge-collinear point) on which
both hypotheses hold and the conclusion evaluates. -/
theorem convexHull_correct_witness :
    (3 ≤ ([((0 : ℤ), (0 : ℤ)), (4, 0), (4, 4), (0, 4), (2, 2), (2, 0)]
        : List Pt).length
      ∧ ¬ AllCollinear [((0 : ℤ), (0 : ℤ)), (4, 0), (4, 4), (0, 4), (2, 2), (2, 0)])
    ∧ IsConvexHullOf [((0 : ℤ), (0 : ℤ)), (4, 0), (4, 4), (0, 4), (2, 2), (2, 0)]
        (convexHull [((0 : ℤ), (0 : ℤ)), (4, 0), (4, 4), (0, 4), (2, 2), (2, 0)]) :=
  ⟨⟨by decide, by decide⟩,
    convexHull_correct [((0 : ℤ), (0 : ℤ)), (4, 0), (4, 4), (0, 4), (2, 2), (2, 0)]
      (by decide) (by decide)⟩

end Hull
